import Mathlib

/-!
Verification development for the pyfreecoil optimization-orchestration core.

The Python sources are shallowly embedded:
  * `src/pyfreecoil/design/encoding_design.py` (encoder: scaling,
    interleaving, fixed masks, bounds, reduce/expand, resampling),
  * `src/pyfreecoil/utils/manage_pool.py` (FctPool / QueuePool),
  * `src/pyfreecoil/optimizer/algorithm.py` (`_FunctionEval` monitor).

Floating-point values are modelled as exact rationals; `NaN` sentinels are
modelled with `Option`; a Python exception (assert failure, numpy index or
reduction error) is modelled as `Option.none` of the embedded operation.
-/

namespace PyFreeCoil

/-- Rounding of `np.round`: round half to even (banker's rounding). -/
def npRound (q : ℚ) : ℤ :=
  let f : ℚ := q - (⌊q⌋ : ℚ)
  if f < 1/2 then ⌊q⌋
  else if 1/2 < f then ⌊q⌋ + 1
  else if 2 ∣ ⌊q⌋ then ⌊q⌋ else ⌊q⌋ + 1

/-- Python/numpy integer array indexing: non-negative indices are direct,
negative indices count from the end, anything out of range raises
(`none`). Embeds the indexing `val_discrete[val]` in `_decode_int`. -/
def pyIndex (l : List ℤ) (i : ℤ) : Option ℤ :=
  if 0 ≤ i then
    if i < (l.length : ℤ) then l.get? i.toNat else none
  else
    if 0 ≤ (l.length : ℤ) + i then l.get? ((l.length : ℤ) + i).toNat else none

/-- The index computed by `np.searchsorted` on a sorted list for a value that
is present: the number of leading elements strictly below the value. -/
def searchsorted (l : List ℤ) (v : ℤ) : ℕ :=
  (l.takeWhile (fun w => decide (w < v))).length

/-- Embeds `_decode_float`: inverse affine map from the normalized range
back to the domain range. -/
def decode_float (v vmin vmax nmin nmax : ℚ) : ℚ :=
  vmin + ((v - nmin) / (nmax - nmin)) * (vmax - vmin)

/-- Embeds `_encode_float`: affine map from the domain range into the
normalized range. -/
def encode_float (v vmin vmax nmin nmax : ℚ) : ℚ :=
  nmin + ((v - vmin) / (vmax - vmin)) * (nmax - nmin)

/-- Embeds `_decode_int` element-wise: round each entry and index into the
discrete code list (numpy indexing, so negative indices wrap from the end
and out-of-range indices raise). The code list holds integers, so the
`np.round` applied to it is the identity. -/
def decode_int : List ℚ → List ℤ → Option (List ℤ)
  | [], _ => some []
  | q :: qs, codes =>
    match pyIndex codes (npRound q), decode_int qs codes with
    | some v, some vs => some (v :: vs)
    | _, _ => none

/-- Embeds `_encode_int` element-wise: assert membership in the code list
(`np.in1d`), then map each value to its `searchsorted` index, cast to
float. -/
def encode_int : List ℤ → List ℤ → Option (List ℚ)
  | [], _ => some []
  | v :: vs, codes =>
    if codes.contains v then
      match encode_int vs codes with
      | some r => some (((searchsorted codes v : ℤ) : ℚ) :: r)
      | none => none
    else none

/-- Embeds `_get_variable_zip`: interleave the four per-node arrays into one
design vector of length `4 n − 1` (positions `0,1,2,3 mod 4` hold `x`, `y`,
`width`, `layer`; the layer slot exists only for the first `n − 1` nodes). -/
def varZip (n : ℕ) (xs ys ws ls : List α) (d : α) : List α :=
  (List.range (4 * n - 1)).map (fun p =>
    if p % 4 = 0 then xs.getD (p / 4) d
    else if p % 4 = 1 then ys.getD (p / 4) d
    else if p % 4 = 2 then ws.getD (p / 4) d
    else ls.getD (p / 4) d)

/-- Embeds the `x` row of `_get_variable_split` (stride-4 slice from 0). -/
def varSplitX (n : ℕ) (x : List ℚ) : List ℚ :=
  (List.range n).map (fun i => x.getD (4 * i) 0)

/-- Embeds the `y` row of `_get_variable_split` (stride-4 slice from 1). -/
def varSplitY (n : ℕ) (x : List ℚ) : List ℚ :=
  (List.range n).map (fun i => x.getD (4 * i + 1) 0)

/-- Embeds the `width` row of `_get_variable_split` (stride-4 slice from 2). -/
def varSplitW (n : ℕ) (x : List ℚ) : List ℚ :=
  (List.range n).map (fun i => x.getD (4 * i + 2) 0)

/-- Embeds the `layer` row of `_get_variable_split` (stride-4 slice from 3,
one fewer entry than nodes). -/
def varSplitL (n : ℕ) (x : List ℚ) : List ℚ :=
  (List.range (n - 1)).map (fun i => x.getD (4 * i + 3) 0)

/-- Literal terminal geometry (`src_geom` / `sink_geom` dictionaries): the
pinned nodes' coordinates, widths and outgoing layer codes. -/
structure TermGeom where
  x : List ℚ
  y : List ℚ
  width : List ℚ
  layer : List ℤ

/-- The `data_encoding` dictionary: node count, pinned/masked terminal node
counts, terminal geometry, scaling bounds and the sorted de-duplicated
layer code list. -/
structure DataEncoding where
  n_wdg : ℕ
  n_add_src : ℕ
  n_add_sink : ℕ
  n_mask_src : ℕ
  n_mask_sink : ℕ
  src_geom : TermGeom
  sink_geom : TermGeom
  norm_min : ℚ
  norm_max : ℚ
  layer_list : List ℤ
  width_min : ℚ
  width_max : ℚ
  x_min : ℚ
  x_max : ℚ
  y_min : ℚ
  y_max : ℚ

/-- The `data_coil` dictionary: node count, coordinates (stored as the two
columns of the `(n, 2)` coordinate array), widths, and inter-node layer
codes. -/
structure DataCoil where
  n_wdg : ℕ
  x_wdg : List ℚ
  y_wdg : List ℚ
  width_wdg : List ℚ
  layer_wdg : List ℤ
deriving DecidableEq

/-- Embeds `get_decode`: check the vector length (`_get_variable_split`
assert), de-interleave, unscale the continuous fields, and map layer
entries through `_decode_int` (which can raise on out-of-range indices). -/
def get_decode (x : List ℚ) (e : DataEncoding) : Option DataCoil :=
  if x.length = 4 * e.n_wdg - 1 then
    match decode_int (varSplitL e.n_wdg x) e.layer_list with
    | some ls =>
      some
        { n_wdg := e.n_wdg
          x_wdg := (varSplitX e.n_wdg x).map
            (fun v => decode_float v e.x_min e.x_max e.norm_min e.norm_max)
          y_wdg := (varSplitY e.n_wdg x).map
            (fun v => decode_float v e.y_min e.y_max e.norm_min e.norm_max)
          width_wdg := (varSplitW e.n_wdg x).map
            (fun v => decode_float v e.width_min e.width_max e.norm_min e.norm_max)
          layer_wdg := ls }
    | none => none
  else none

/-- Embeds `get_encode`: check the geometry sizes (asserts), scale the
continuous fields, map layers through `_encode_int` (which raises if a
layer value is absent from the code list), and interleave. -/
def get_encode (c : DataCoil) (e : DataEncoding) : Option (List ℚ) :=
  if c.n_wdg = e.n_wdg ∧ c.x_wdg.length = e.n_wdg ∧ c.y_wdg.length = e.n_wdg ∧
      c.width_wdg.length = e.n_wdg ∧ c.layer_wdg.length = e.n_wdg - 1 then
    match encode_int c.layer_wdg e.layer_list with
    | some ls =>
      some (varZip e.n_wdg
        (c.x_wdg.map (fun v => encode_float v e.x_min e.x_max e.norm_min e.norm_max))
        (c.y_wdg.map (fun v => encode_float v e.y_min e.y_max e.norm_min e.norm_max))
        (c.width_wdg.map (fun v => encode_float v e.width_min e.width_max e.norm_min e.norm_max))
        ls 0)
    | none => none
  else none

/-! ### Basic lemmas about the interleaving -/

theorem varZip_length (n : ℕ) (xs ys ws ls : List α) (d : α) :
    (varZip n xs ys ws ls d).length = 4 * n - 1 := by
  simp [varZip]

theorem varZip_getD (n : ℕ) (xs ys ws ls : List α) (d : α) (p : ℕ)
    (hp : p < 4 * n - 1) :
    (varZip n xs ys ws ls d).getD p d =
      (if p % 4 = 0 then xs.getD (p / 4) d
       else if p % 4 = 1 then ys.getD (p / 4) d
       else if p % 4 = 2 then ws.getD (p / 4) d
       else ls.getD (p / 4) d) := by
  unfold varZip
  rw [List.getD_eq_getElem?_getD, List.getElem?_map, List.getElem?_range hp]
  simp

theorem range_map_getD (l : List α) (d : α) :
    (List.range l.length).map (fun i => l.getD i d) = l := by
  induction l with
  | nil => simp
  | cons a t ih =>
    simp only [List.length_cons, List.range_succ_eq_map, List.map_cons, List.map_map]
    refine congrArg (List.cons a) ?_
    have hc : ((fun i => (a :: t).getD i d) ∘ Nat.succ) = fun i => t.getD i d := by
      funext i
      simp [List.getD_cons_succ]
    rw [hc]
    exact ih

theorem varSplitX_zip (n : ℕ) (xs ys ws ls : List ℚ) (hx : xs.length = n) :
    varSplitX n (varZip n xs ys ws ls 0) = xs := by
  unfold varSplitX
  have h : ∀ i < n, (varZip n xs ys ws ls 0).getD (4 * i) 0 = xs.getD i 0 := by
    intro i hi
    rw [varZip_getD n xs ys ws ls 0 (4 * i) (by omega)]
    have h0 : 4 * i % 4 = 0 := by omega
    have h1 : 4 * i / 4 = i := by omega
    simp [h0, h1]
  calc (List.range n).map (fun i => (varZip n xs ys ws ls 0).getD (4 * i) 0)
      = (List.range n).map (fun i => xs.getD i 0) := by
        refine List.map_congr_left ?_
        intro i hi
        exact h i (List.mem_range.mp hi)
    _ = xs := by rw [← hx]; exact range_map_getD xs 0

theorem varSplitY_zip (n : ℕ) (xs ys ws ls : List ℚ) (hy : ys.length = n) :
    varSplitY n (varZip n xs ys ws ls 0) = ys := by
  unfold varSplitY
  have h : ∀ i < n, (varZip n xs ys ws ls 0).getD (4 * i + 1) 0 = ys.getD i 0 := by
    intro i hi
    rw [varZip_getD n xs ys ws ls 0 (4 * i + 1) (by omega)]
    have h0 : (4 * i + 1) % 4 = 1 := by omega
    have h1 : (4 * i + 1) / 4 = i := by omega
    simp [h0, h1]
  calc (List.range n).map (fun i => (varZip n xs ys ws ls 0).getD (4 * i + 1) 0)
      = (List.range n).map (fun i => ys.getD i 0) := by
        refine List.map_congr_left ?_
        intro i hi
        exact h i (List.mem_range.mp hi)
    _ = ys := by rw [← hy]; exact range_map_getD ys 0

theorem varSplitW_zip (n : ℕ) (xs ys ws ls : List ℚ) (hw : ws.length = n) :
    varSplitW n (varZip n xs ys ws ls 0) = ws := by
  unfold varSplitW
  have h : ∀ i < n, (varZip n xs ys ws ls 0).getD (4 * i + 2) 0 = ws.getD i 0 := by
    intro i hi
    rw [varZip_getD n xs ys ws ls 0 (4 * i + 2) (by omega)]
    have h0 : (4 * i + 2) % 4 = 2 := by omega
    have h1 : (4 * i + 2) / 4 = i := by omega
    simp [h0, h1]
  calc (List.range n).map (fun i => (varZip n xs ys ws ls 0).getD (4 * i + 2) 0)
      = (List.range n).map (fun i => ws.getD i 0) := by
        refine List.map_congr_left ?_
        intro i hi
        exact h i (List.mem_range.mp hi)
    _ = ws := by rw [← hw]; exact range_map_getD ws 0

theorem varSplitL_zip (n : ℕ) (xs ys ws ls : List ℚ) (hl : ls.length = n - 1) :
    varSplitL n (varZip n xs ys ws ls 0) = ls := by
  unfold varSplitL
  have h : ∀ i < n - 1, (varZip n xs ys ws ls 0).getD (4 * i + 3) 0 = ls.getD i 0 := by
    intro i hi
    rw [varZip_getD n xs ys ws ls 0 (4 * i + 3) (by omega)]
    have h0 : (4 * i + 3) % 4 = 3 := by omega
    have h1 : (4 * i + 3) / 4 = i := by omega
    simp [h0, h1]
  calc (List.range (n - 1)).map (fun i => (varZip n xs ys ws ls 0).getD (4 * i + 3) 0)
      = (List.range (n - 1)).map (fun i => ls.getD i 0) := by
        refine List.map_congr_left ?_
        intro i hi
        exact h i (List.mem_range.mp hi)
    _ = ls := by rw [← hl]; exact range_map_getD ls 0

/-! ### Layer code round trip -/

theorem npRound_natCast (k : ℕ) : npRound (k : ℚ) = k := by
  unfold npRound
  have hf : ⌊(k : ℚ)⌋ = (k : ℤ) := by
    exact_mod_cast Int.floor_natCast k
  rw [hf]
  norm_num

theorem searchsorted_get (l : List ℤ) (v : ℤ) (hs : l.Pairwise (· < ·))
    (hv : v ∈ l) : l.get? (searchsorted l v) = some v := by
  induction l with
  | nil => cases hv
  | cons c rest ih =>
    rcases List.pairwise_cons.mp hs with ⟨hc, hrest⟩
    by_cases hlt : c < v
    · have hvr : v ∈ rest := by
        rcases List.mem_cons.mp hv with h | h
        · omega
        · exact h
      unfold searchsorted
      simp only [List.takeWhile_cons, decide_eq_true_eq, hlt, if_pos, List.length_cons]
      simpa [searchsorted] using ih hrest hvr
    · have hveq : v = c := by
        rcases List.mem_cons.mp hv with h | h
        · exact h
        · exact absurd (hc v h) hlt
      unfold searchsorted
      simp [List.takeWhile_cons, hlt, hveq]

theorem searchsorted_lt_length (l : List ℤ) (v : ℤ) (hs : l.Pairwise (· < ·))
    (hv : v ∈ l) : searchsorted l v < l.length := by
  have h := searchsorted_get l v hs hv
  by_contra hge
  rw [List.get?_eq_none.mpr (by omega)] at h
  cases h

theorem pyIndex_natCast (l : List ℤ) (k : ℕ) (hk : k < l.length) :
    pyIndex l (k : ℤ) = l.get? k := by
  unfold pyIndex
  have h0 : (0 : ℤ) ≤ (k : ℤ) := by positivity
  rw [if_pos h0, if_pos (by exact_mod_cast hk)]
  simp

theorem encode_int_eq_map (vs codes : List ℤ) (hmem : ∀ v ∈ vs, v ∈ codes) :
    encode_int vs codes =
      some (vs.map (fun v => ((searchsorted codes v : ℤ) : ℚ))) := by
  induction vs with
  | nil => rfl
  | cons v rest ih =>
    have hv : v ∈ codes := hmem v (List.mem_cons_self v rest)
    have hrest : ∀ w ∈ rest, w ∈ codes := fun w hw => hmem w (List.mem_cons_of_mem v hw)
    unfold encode_int
    rw [if_pos (by simpa using hv), ih hrest]
    simp

theorem decode_int_encode (vs codes : List ℤ) (hs : codes.Pairwise (· < ·))
    (hmem : ∀ v ∈ vs, v ∈ codes) :
    decode_int (vs.map (fun v => ((searchsorted codes v : ℤ) : ℚ))) codes = some vs := by
  induction vs with
  | nil => rfl
  | cons v rest ih =>
    have hv : v ∈ codes := hmem v (List.mem_cons_self v rest)
    have hrest : ∀ w ∈ rest, w ∈ codes := fun w hw => hmem w (List.mem_cons_of_mem v hw)
    have hr : npRound ((searchsorted codes v : ℤ) : ℚ) = (searchsorted codes v : ℤ) := by
      have := npRound_natCast (searchsorted codes v)
      simpa using this
    have hidx : pyIndex codes (npRound ((searchsorted codes v : ℤ) : ℚ)) = some v := by
      rw [hr]
      have hlt := searchsorted_lt_length codes v hs hv
      calc pyIndex codes ((searchsorted codes v : ℕ) : ℤ)
          = codes.get? (searchsorted codes v) := pyIndex_natCast codes _ hlt
        _ = some v := searchsorted_get codes v hs hv
    simp only [List.map_cons, decode_int, hidx, ih hrest]

theorem decode_encode_float (v vmin vmax nmin nmax : ℚ)
    (hv : vmin ≠ vmax) (hn : nmin ≠ nmax) :
    decode_float (encode_float v vmin vmax nmin nmax) vmin vmax nmin nmax = v := by
  unfold decode_float encode_float
  have h1 : vmax - vmin ≠ 0 := fun h => hv (by linarith)
  have h2 : nmax - nmin ≠ 0 := fun h => hn (by linarith)
  field_simp
  ring

/-- C1: for every geometry with `N` nodes whose coordinates and widths lie
within the declared scaling bounds and whose `N − 1` layer codes are all
members of the sorted de-duplicated code list, decoding the encoding
returns the original geometry exactly (hence within floating tolerance for
the continuous fields, and exactly for the layer codes). -/
theorem C1_encode_decode_roundtrip (c : DataCoil) (e : DataEncoding)
    (hn : c.n_wdg = e.n_wdg) (hn1 : 1 ≤ e.n_wdg)
    (hx : c.x_wdg.length = e.n_wdg) (hy : c.y_wdg.length = e.n_wdg)
    (hw : c.width_wdg.length = e.n_wdg) (hl : c.layer_wdg.length = e.n_wdg - 1)
    (hsort : e.layer_list.Pairwise (· < ·))
    (hmem : ∀ v ∈ c.layer_wdg, v ∈ e.layer_list)
    (hxb : ∀ v ∈ c.x_wdg, e.x_min ≤ v ∧ v ≤ e.x_max)
    (hyb : ∀ v ∈ c.y_wdg, e.y_min ≤ v ∧ v ≤ e.y_max)
    (hwb : ∀ v ∈ c.width_wdg, e.width_min ≤ v ∧ v ≤ e.width_max)
    (hxr : e.x_min < e.x_max) (hyr : e.y_min < e.y_max)
    (hwr : e.width_min < e.width_max) (hnr : e.norm_min < e.norm_max) :
    ∃ vec, get_encode c e = some vec ∧ get_decode vec e = some c := by
  set encL := c.layer_wdg.map (fun v => ((searchsorted e.layer_list v : ℤ) : ℚ)) with hencL
  set encX := c.x_wdg.map (fun v => encode_float v e.x_min e.x_max e.norm_min e.norm_max) with hencX
  set encY := c.y_wdg.map (fun v => encode_float v e.y_min e.y_max e.norm_min e.norm_max) with hencY
  set encW := c.width_wdg.map
    (fun v => encode_float v e.width_min e.width_max e.norm_min e.norm_max) with hencW
  refine ⟨varZip e.n_wdg encX encY encW encL 0, ?_, ?_⟩
  · unfold get_encode
    rw [if_pos ⟨hn, hx, hy, hw, hl⟩, encode_int_eq_map c.layer_wdg e.layer_list hmem]
  · unfold get_decode
    rw [if_pos (varZip_length e.n_wdg encX encY encW encL 0)]
    have hLlen : encL.length = e.n_wdg - 1 := by simp [hencL, hl]
    have hXlen : encX.length = e.n_wdg := by simp [hencX, hx]
    have hYlen : encY.length = e.n_wdg := by simp [hencY, hy]
    have hWlen : encW.length = e.n_wdg := by simp [hencW, hw]
    rw [varSplitL_zip e.n_wdg encX encY encW encL hLlen, hencL,
      decode_int_encode c.layer_wdg e.layer_list hsort hmem]
    rw [varSplitX_zip e.n_wdg encX encY encW encL hXlen,
      varSplitY_zip e.n_wdg encX encY encW encL hYlen,
      varSplitW_zip e.n_wdg encX encY encW encL hWlen]
    have hxid : encX.map (fun v => decode_float v e.x_min e.x_max e.norm_min e.norm_max) =
        c.x_wdg := by
      rw [hencX, List.map_map]
      have : ∀ v ∈ c.x_wdg,
          decode_float (encode_float v e.x_min e.x_max e.norm_min e.norm_max)
            e.x_min e.x_max e.norm_min e.norm_max = v := fun v _ =>
        decode_encode_float v _ _ _ _ (ne_of_lt hxr) (ne_of_lt hnr)
      calc c.x_wdg.map _ = c.x_wdg.map id := List.map_congr_left (fun v hv => this v hv)
        _ = c.x_wdg := List.map_id c.x_wdg
    have hyid : encY.map (fun v => decode_float v e.y_min e.y_max e.norm_min e.norm_max) =
        c.y_wdg := by
      rw [hencY, List.map_map]
      have : ∀ v ∈ c.y_wdg,
          decode_float (encode_float v e.y_min e.y_max e.norm_min e.norm_max)
            e.y_min e.y_max e.norm_min e.norm_max = v := fun v _ =>
        decode_encode_float v _ _ _ _ (ne_of_lt hyr) (ne_of_lt hnr)
      calc c.y_wdg.map _ = c.y_wdg.map id := List.map_congr_left (fun v hv => this v hv)
        _ = c.y_wdg := List.map_id c.y_wdg
    have hwid : encW.map
        (fun v => decode_float v e.width_min e.width_max e.norm_min e.norm_max) =
        c.width_wdg := by
      rw [hencW, List.map_map]
      have : ∀ v ∈ c.width_wdg,
          decode_float (encode_float v e.width_min e.width_max e.norm_min e.norm_max)
            e.width_min e.width_max e.norm_min e.norm_max = v := fun v _ =>
        decode_encode_float v _ _ _ _ (ne_of_lt hwr) (ne_of_lt hnr)
      calc c.width_wdg.map _ = c.width_wdg.map id :=
          List.map_congr_left (fun v hv => this v hv)
        _ = c.width_wdg := List.map_id c.width_wdg
    rw [hxid, hyid, hwid]
    cases c
    simp only at hn hx hy hw hl
    subst hn
    rfl

/-- Concrete instantiation of the C1 round trip: a two-node geometry with
layer list `[1, 3]`. -/
theorem C1_encode_decode_roundtrip_witness :
    ∃ vec,
      get_encode
        { n_wdg := 2, x_wdg := [1, 2], y_wdg := [3, 4],
          width_wdg := [5, 6], layer_wdg := [3] }
        { n_wdg := 2, n_add_src := 0, n_add_sink := 0, n_mask_src := 0,
          n_mask_sink := 0,
          src_geom := ⟨[], [], [], []⟩, sink_geom := ⟨[], [], [], []⟩,
          norm_min := -1, norm_max := 1, layer_list := [1, 3],
          width_min := 0, width_max := 10, x_min := 0, x_max := 10,
          y_min := 0, y_max := 10 } = some vec ∧
      get_decode vec
        { n_wdg := 2, n_add_src := 0, n_add_sink := 0, n_mask_src := 0,
          n_mask_sink := 0,
          src_geom := ⟨[], [], [], []⟩, sink_geom := ⟨[], [], [], []⟩,
          norm_min := -1, norm_max := 1, layer_list := [1, 3],
          width_min := 0, width_max := 10, x_min := 0, x_max := 10,
          y_min := 0, y_max := 10 } =
        some { n_wdg := 2, x_wdg := [1, 2], y_wdg := [3, 4],
               width_wdg := [5, 6], layer_wdg := [3] } :=
  C1_encode_decode_roundtrip _ _ rfl (by decide) rfl rfl rfl rfl (by decide)
    (by decide) (by decide) (by decide) (by decide) (by norm_num) (by norm_num)
    (by norm_num) (by norm_num)

/-! ### Fixed-variable masking: reduce / expand -/

/-- Elementwise `np.allclose` test with numpy's default tolerances
(`rtol = 1e-5`, `atol = 1e-8`): `|a − b| ≤ atol + rtol * |b|`. -/
def allclose1 (a b : ℚ) : Bool :=
  decide (|a - b| ≤ 1 / 100000000 + (1 / 100000) * |b|)

/-- Embeds `get_reduce`: the mask is a vector whose entries are either a
finite fixed value (`some`) or the free `NaN` sentinel (`none`). The free
positions of the candidate are extracted; the fixed positions are asserted
`np.allclose` to the stored fixed values (assert failure, or a numpy
length mismatch between the candidate and the mask, is `none`). -/
def get_reduce : List ℚ → List (Option ℚ) → Option (List ℚ)
  | [], [] => some []
  | a :: xs, none :: m => (get_reduce xs m).map (fun r => a :: r)
  | a :: xs, some v :: m => if allclose1 a v then get_reduce xs m else none
  | _, _ => none

/-- Embeds `get_expand`: copy the mask, then write the free vector into the
`NaN` positions in order. A free-vector length differing from the number
of `NaN` positions raises in numpy (`none`; the numpy length-1 broadcast
corner is not involved in any reachable mask of size 1 differing from the
free count and is modelled as a failure as well). -/
def get_expand : List ℚ → List (Option ℚ) → Option (List ℚ)
  | f, [] => if f.isEmpty then some [] else none
  | f, some v :: m => (get_expand f m).map (fun r => v :: r)
  | [], none :: _ => none
  | a :: f, none :: m => (get_expand f m).map (fun r => a :: r)

/-- The subvector of `x` at the free (`none`) positions of the mask, in
order. -/
def freeSub (x : List ℚ) (m : List (Option ℚ)) : List ℚ :=
  ((x.zip m).filter (fun p => p.2.isNone)).map Prod.fst

/-- Whether every fixed position of the mask agrees (within `np.allclose`
tolerance) with the candidate vector. -/
def fixedOk (x : List ℚ) (m : List (Option ℚ)) : Bool :=
  (x.zip m).all (fun p =>
    match p.2 with
    | some v => allclose1 p.1 v
    | none => true)

theorem allclose1_refl (v : ℚ) : allclose1 v v = true := by
  unfold allclose1
  have h : |v - v| = 0 := by simp
  rw [h]
  have : (0 : ℚ) ≤ 1 / 100000000 + (1 / 100000) * |v| := by positivity
  simpa using this

/-- C6: expanding a free vector of matching length and reducing it back is
the identity, and the expansion reproduces every fixed mask value at its
own position. -/
theorem C6_reduce_expand_inverse (m : List (Option ℚ)) (f : List ℚ)
    (hlen : f.length = (m.filter (fun o => o.isNone)).length) :
    ∃ full, get_expand f m = some full ∧ get_reduce full m = some f ∧
      ∀ i v, m.getD i none = some v → full.getD i 0 = v := by
  induction m generalizing f with
  | nil =>
    have hf : f = [] := List.length_eq_zero.mp (by simpa using hlen)
    subst hf
    exact ⟨[], rfl, rfl, by intro i v h; simp at h⟩
  | cons o m ih =>
    cases o with
    | some v =>
      have hlen' : f.length = (m.filter (fun o => o.isNone)).length := by
        simpa using hlen
      obtain ⟨full, hexp, hred, hfix⟩ := ih f hlen'
      refine ⟨v :: full, ?_, ?_, ?_⟩
      · simp [get_expand, hexp]
      · simp [get_reduce, allclose1_refl, hred]
      · intro i w h
        cases i with
        | zero => simp at h; simpa using h
        | succ j =>
          simp only [List.getD_cons_succ] at h ⊢
          exact hfix j w h
    | none =>
      cases f with
      | nil => simp at hlen
      | cons a f =>
        have hlen' : f.length = (m.filter (fun o => o.isNone)).length := by
          simpa using hlen
        obtain ⟨full, hexp, hred, hfix⟩ := ih f hlen'
        refine ⟨a :: full, ?_, ?_, ?_⟩
        · simp [get_expand, hexp]
        · simp [get_reduce, hred]
        · intro i w h
          cases i with
          | zero => simp at h
          | succ j =>
            simp only [List.getD_cons_succ] at h ⊢
            exact hfix j w h

/-- Concrete instantiation of C6 on a mixed mask. -/
theorem C6_reduce_expand_inverse_witness :
    ∃ full, get_expand [7, 9] [none, some 5, none, some 2] = some full ∧
      get_reduce full [none, some 5, none, some 2] = some [7, 9] ∧
      ∀ i v, List.getD [none, some 5, none, some 2] i none = some v →
        full.getD i 0 = v :=
  C6_reduce_expand_inverse [none, some 5, none, some 2] [7, 9] (by decide)

/-- C7: on equal-length inputs, `get_reduce` fails exactly when some fixed
mask position disagrees with the candidate value beyond the `np.allclose`
tolerance; on success it returns exactly the subvector of the candidate at
the free positions, in order. -/
theorem fixedOk_cons_none (a : ℚ) (xs : List ℚ) (m : List (Option ℚ)) :
    fixedOk (a :: xs) (none :: m) = fixedOk xs m := by
  simp [fixedOk]

theorem fixedOk_cons_some (a v : ℚ) (xs : List ℚ) (m : List (Option ℚ)) :
    fixedOk (a :: xs) (some v :: m) = (allclose1 a v && fixedOk xs m) := by
  simp [fixedOk]

theorem freeSub_cons_none (a : ℚ) (xs : List ℚ) (m : List (Option ℚ)) :
    freeSub (a :: xs) (none :: m) = a :: freeSub xs m := by
  simp [freeSub]

theorem freeSub_cons_some (a v : ℚ) (xs : List ℚ) (m : List (Option ℚ)) :
    freeSub (a :: xs) (some v :: m) = freeSub xs m := by
  simp [freeSub]

theorem C7_reduce_fixed_integrity (x : List ℚ) (m : List (Option ℚ))
    (hlen : x.length = m.length) :
    get_reduce x m = if fixedOk x m then some (freeSub x m) else none := by
  induction x generalizing m with
  | nil =>
    have hm : m = [] := List.length_eq_zero.mp (by simpa using hlen.symm)
    subst hm
    rfl
  | cons a xs ih =>
    cases m with
    | nil => simp at hlen
    | cons o m =>
      have hlen' : xs.length = m.length := by simpa using hlen
      cases o with
      | none =>
        simp only [get_reduce, ih m hlen', fixedOk_cons_none, freeSub_cons_none]
        by_cases h : fixedOk xs m <;> simp [h]
      | some v =>
        simp only [get_reduce, ih m hlen', fixedOk_cons_some, freeSub_cons_some]
        by_cases hc : allclose1 a v
        · by_cases h : fixedOk xs m <;> simp [hc, h]
        · simp [hc]

/-- Concrete instantiation of C7: a perturbed fixed entry makes the
reduction fail, and with agreeing fixed entries the free subvector is
returned. -/
theorem C7_reduce_fixed_integrity_witness :
    get_reduce [1, 4, 3] [none, some 5, none] =
      (if fixedOk [1, 4, 3] [none, some 5, none] then
        some (freeSub [1, 4, 3] [none, some 5, none]) else none) :=
  C7_reduce_fixed_integrity [1, 4, 3] [none, some 5, none] (by decide)

/-! ### Decode layer index range behaviour -/

theorem pyIndex_isSome_iff (l : List ℤ) (i : ℤ) :
    (pyIndex l i).isSome ↔ (-(l.length : ℤ) ≤ i ∧ i < (l.length : ℤ)) := by
  unfold pyIndex
  by_cases h0 : 0 ≤ i
  · rw [if_pos h0]
    by_cases hlt : i < (l.length : ℤ)
    · rw [if_pos hlt]
      have : i.toNat < l.length := by omega
      simp [List.get?_eq_getElem?, List.getElem?_eq_getElem this]
      omega
    · rw [if_neg hlt]
      simp
      omega
  · rw [if_neg h0]
    by_cases hge : 0 ≤ (l.length : ℤ) + i
    · rw [if_pos hge]
      have : ((l.length : ℤ) + i).toNat < l.length := by omega
      simp [List.get?_eq_getElem?, List.getElem?_eq_getElem this]
      omega
    · rw [if_neg hge]
      simp
      omega

theorem pyIndex_neg (l : List ℤ) (i : ℤ) (hlo : -(l.length : ℤ) ≤ i) (hi : i < 0) :
    pyIndex l i = some (l.getD ((l.length : ℤ) + i).toNat 0) := by
  unfold pyIndex
  rw [if_neg (by omega), if_pos (by omega)]
  have hlt : ((l.length : ℤ) + i).toNat < l.length := by omega
  simp [List.get?_eq_getElem?, List.getElem?_eq_getElem hlt, List.getD_eq_getElem l 0 hlt]

theorem decode_int_all_in_range (qs : List ℚ) (codes : List ℤ)
    (hall : ∀ q ∈ qs, -(codes.length : ℤ) ≤ npRound q ∧ npRound q < (codes.length : ℤ)) :
    ∃ vs, decode_int qs codes = some vs ∧ vs.length = qs.length ∧
      ∀ j < qs.length, some (vs.getD j 0) = pyIndex codes (npRound (qs.getD j 0)) := by
  induction qs with
  | nil => exact ⟨[], rfl, rfl, by intro j hj; simp at hj⟩
  | cons q rest ih =>
    obtain ⟨hq1, hq2⟩ := hall q (List.mem_cons_self q rest)
    obtain ⟨vs, hvs, hvslen, hvsval⟩ :=
      ih (fun w hw => hall w (List.mem_cons_of_mem q hw))
    obtain ⟨v, hv⟩ := Option.isSome_iff_exists.mp
      ((pyIndex_isSome_iff codes (npRound q)).mpr ⟨hq1, hq2⟩)
    refine ⟨v :: vs, ?_, by simpa using hvslen, ?_⟩
    · simp only [decode_int, hv, hvs]
    · intro j hj
      cases j with
      | zero => simpa using hv.symm
      | succ k =>
        simp only [List.getD_cons_succ]
        exact hvsval k (by simpa using hj)

theorem decode_int_out_of_range (qs : List ℚ) (codes : List ℤ) (q : ℚ)
    (hq : q ∈ qs)
    (hout : npRound q < -(codes.length : ℤ) ∨ (codes.length : ℤ) ≤ npRound q) :
    decode_int qs codes = none := by
  induction qs with
  | nil => cases hq
  | cons a rest ih =>
    rcases List.mem_cons.mp hq with h | h
    · have hnone : pyIndex codes (npRound a) = none := by
        rw [← h]
        by_contra hne
        have := (pyIndex_isSome_iff codes (npRound q)).mp
          (Option.ne_none_iff_isSome.mp hne)
        omega
      simp only [decode_int, hnone]
    · cases hpi : pyIndex codes (npRound a) with
      | none => simp only [decode_int, hpi]
      | some v => simp only [decode_int, hpi, ih h]

/-- C10 as amended: decoding performs no lower-bound check at `0`: when every
rounded layer entry `i` satisfies `−len ≤ i < len`, decoding succeeds, and
a negative `i` silently selects the code at position `len + i`; decoding
raises exactly when some rounded layer index is `≥ len` or `< −len` (not
only when it is `≥ len`). -/
theorem C10_decode_negative_indexing (e : DataEncoding) (x : List ℚ)
    (hlen : x.length = 4 * e.n_wdg - 1) :
    ((∀ q ∈ varSplitL e.n_wdg x,
        -(e.layer_list.length : ℤ) ≤ npRound q ∧
          npRound q < (e.layer_list.length : ℤ)) →
      ∃ c, get_decode x e = some c ∧
        ∀ j < e.n_wdg - 1,
          npRound ((varSplitL e.n_wdg x).getD j 0) < 0 →
            c.layer_wdg.getD j 0 =
              e.layer_list.getD
                ((e.layer_list.length : ℤ) +
                  npRound ((varSplitL e.n_wdg x).getD j 0)).toNat 0) ∧
    (∀ q ∈ varSplitL e.n_wdg x,
      (npRound q < -(e.layer_list.length : ℤ) ∨
        (e.layer_list.length : ℤ) ≤ npRound q) →
      get_decode x e = none) := by
  constructor
  · intro hall
    obtain ⟨vs, hvs, hvslen, hvsval⟩ :=
      decode_int_all_in_range (varSplitL e.n_wdg x) e.layer_list hall
    refine ⟨{ n_wdg := e.n_wdg
              x_wdg := (varSplitX e.n_wdg x).map
                (fun v => decode_float v e.x_min e.x_max e.norm_min e.norm_max)
              y_wdg := (varSplitY e.n_wdg x).map
                (fun v => decode_float v e.y_min e.y_max e.norm_min e.norm_max)
              width_wdg := (varSplitW e.n_wdg x).map
                (fun v => decode_float v e.width_min e.width_max e.norm_min e.norm_max)
              layer_wdg := vs }, ?_, ?_⟩
    · unfold get_decode
      rw [if_pos hlen, hvs]
    · intro j hj hneg
      have hjlen : j < (varSplitL e.n_wdg x).length := by
        simpa [varSplitL] using hj
      have hmem : (varSplitL e.n_wdg x).getD j 0 ∈ varSplitL e.n_wdg x := by
        rw [List.getD_eq_getElem _ _ hjlen]
        exact List.getElem_mem hjlen
      obtain ⟨hq1, _⟩ := hall _ hmem
      have := hvsval j hjlen
      rw [pyIndex_neg e.layer_list _ hq1 hneg] at this
      simpa using this
  · intro q hq hout
    unfold get_decode
    rw [if_pos hlen, decode_int_out_of_range (varSplitL e.n_wdg x) e.layer_list q hq hout]

/-- Counterexample to C10 as stated: with the code list `[7]` (length 1), a
layer entry rounding to `−2` is strictly below `len(code_list)`, yet
decoding raises (numpy rejects indices below `−len` as well). -/
theorem C10_decode_negative_indexing_counterexample :
    npRound ((varSplitL 2 [0, 0, 0, -2, 0, 0, 0]).getD 0 0) <
      ((([7] : List ℤ)).length : ℤ) ∧
    get_decode [0, 0, 0, -2, 0, 0, 0]
      { n_wdg := 2, n_add_src := 0, n_add_sink := 0, n_mask_src := 0,
        n_mask_sink := 0,
        src_geom := ⟨[], [], [], []⟩, sink_geom := ⟨[], [], [], []⟩,
        norm_min := 0, norm_max := 1, layer_list := [7],
        width_min := 0, width_max := 1, x_min := 0, x_max := 1,
        y_min := 0, y_max := 1 } = none := by
  constructor
  · have h : varSplitL 2 [0, 0, 0, -2, 0, 0, 0] = [-2] := by
      simp [varSplitL, List.range_succ]
    rw [h]
    norm_num [npRound]
  · unfold get_decode
    rw [if_pos (by decide)]
    have h : varSplitL 2 [0, 0, 0, -2, 0, 0, 0] = [-2] := by
      simp [varSplitL, List.range_succ]
    rw [h]
    have hnp : npRound (-2) = -2 := by norm_num [npRound]
    have hpi : pyIndex [7] (npRound (-2)) = none := by
      rw [hnp]
      unfold pyIndex
      norm_num
    simp only [decode_int, hpi]

/-- Concrete instantiation of the amended C10: with the code list `[7, 9]`, a
layer entry rounding to `−1` decodes silently to the last code `9`. -/
theorem C10_decode_negative_indexing_witness :
    ∃ c, get_decode [0, 0, 0, -1, 0, 0, 0]
      { n_wdg := 2, n_add_src := 0, n_add_sink := 0, n_mask_src := 0,
        n_mask_sink := 0,
        src_geom := ⟨[], [], [], []⟩, sink_geom := ⟨[], [], [], []⟩,
        norm_min := 0, norm_max := 1, layer_list := [7, 9],
        width_min := 0, width_max := 1, x_min := 0, x_max := 1,
        y_min := 0, y_max := 1 } = some c ∧
      ∀ j < 2 - 1,
        npRound ((varSplitL 2 [0, 0, 0, -1, 0, 0, 0]).getD j 0) < 0 →
          c.layer_wdg.getD j 0 =
            List.getD [7, 9]
              ((([7, 9] : List ℤ).length : ℤ) +
                npRound ((varSplitL 2 [0, 0, 0, -1, 0, 0, 0]).getD j 0)).toNat 0 :=
  (C10_decode_negative_indexing
    { n_wdg := 2, n_add_src := 0, n_add_sink := 0, n_mask_src := 0,
      n_mask_sink := 0,
      src_geom := ⟨[], [], [], []⟩, sink_geom := ⟨[], [], [], []⟩,
      norm_min := 0, norm_max := 1, layer_list := [7, 9],
      width_min := 0, width_max := 1, x_min := 0, x_max := 1,
      y_min := 0, y_max := 1 }
    [0, 0, 0, -1, 0, 0, 0] (by decide)).1 (by
      intro q hq
      have h : varSplitL 2 [0, 0, 0, -1, 0, 0, 0] = [-1] := by
        simp [varSplitL, List.range_succ]
      rw [h] at hq
      simp at hq
      subst hq
      constructor <;> norm_num [npRound])

/-! ### Fixed mask construction and free-variable bounds -/

/-- The raw (unscaled) fixed `x` coordinate at node `i` in `get_fixed`: the
source terminal fills the first `n_add_src` nodes, the sink terminal fills
the last `n_add_sink` nodes (assigned second, so it wins on overlap),
every other node stays the free sentinel. -/
def fixedRawX (e : DataEncoding) (i : ℕ) : Option ℚ :=
  if e.n_wdg - e.n_add_sink ≤ i then
    some (e.sink_geom.x.getD (i - (e.n_wdg - e.n_add_sink)) 0)
  else if i < e.n_add_src then some (e.src_geom.x.getD i 0)
  else none

/-- The raw fixed `y` coordinate at node `i` in `get_fixed`. -/
def fixedRawY (e : DataEncoding) (i : ℕ) : Option ℚ :=
  if e.n_wdg - e.n_add_sink ≤ i then
    some (e.sink_geom.y.getD (i - (e.n_wdg - e.n_add_sink)) 0)
  else if i < e.n_add_src then some (e.src_geom.y.getD i 0)
  else none

/-- The raw fixed width at node `i` in `get_fixed`. -/
def fixedRawW (e : DataEncoding) (i : ℕ) : Option ℚ :=
  if e.n_wdg - e.n_add_sink ≤ i then
    some (e.sink_geom.width.getD (i - (e.n_wdg - e.n_add_sink)) 0)
  else if i < e.n_add_src then some (e.src_geom.width.getD i 0)
  else none

/-- The raw fixed layer code at slot `i` (of the `n_wdg − 1` slots) in
`get_fixed`: the source terminal fills the first `n_add_src` slots and the
sink terminal the last `n_add_sink` slots of the layer array. -/
def fixedRawL (e : DataEncoding) (i : ℕ) : Option ℤ :=
  if (e.n_wdg - 1) - e.n_add_sink ≤ i then
    some (e.sink_geom.layer.getD (i - ((e.n_wdg - 1) - e.n_add_sink)) 0)
  else if i < e.n_add_src then some (e.src_geom.layer.getD i 0)
  else none

/-- Embeds `get_fixed`: build the per-field arrays with the terminal values
at the pinned positions and the free sentinel elsewhere, scale the pinned
continuous values, encode the pinned layer codes (`_encode_int` raises if
one is absent from the code list), and interleave. The terminal geometry
arrays are assumed to have the declared `n_add` lengths (a numpy length
mismatch would raise before this point). -/
def get_fixed (e : DataEncoding) : Option (List (Option ℚ)) :=
  let xs := (List.range e.n_wdg).map (fun i =>
    (fixedRawX e i).map (fun v => encode_float v e.x_min e.x_max e.norm_min e.norm_max))
  let ys := (List.range e.n_wdg).map (fun i =>
    (fixedRawY e i).map (fun v => encode_float v e.y_min e.y_max e.norm_min e.norm_max))
  let ws := (List.range e.n_wdg).map (fun i =>
    (fixedRawW e i).map (fun v => encode_float v e.width_min e.width_max e.norm_min e.norm_max))
  let rawL := (List.range (e.n_wdg - 1)).map (fun i => fixedRawL e i)
  if rawL.all (fun o => o.all (fun v => e.layer_list.contains v)) then
    some (varZip e.n_wdg xs ys ws
      (rawL.map (fun o => o.map (fun v => ((searchsorted e.layer_list v : ℤ) : ℚ)))) none)
  else none

/-- The bounds dictionary returned by `get_bnd`. -/
structure BndData where
  n_var : ℕ
  discrete : List Bool
  lb : List ℚ
  ub : List ℚ

/-- Boolean-mask selection `arr[np.isnan(x_fixed)]`: keep the entries of the
array at the free (`none`) positions of the mask. -/
def maskFilter (mask : List (Option ℚ)) (l : List α) : List α :=
  ((l.zip mask).filter (fun p => p.2.isNone)).map Prod.fst

/-- Embeds `get_bnd`: build full interleaved lower/upper/discreteness
vectors (continuous fields bounded by the normalized range, layer slots by
`[0, len(layer_list) − 1]` and flagged discrete), then drop the positions
fixed in the mask. -/
def get_bnd (x_fixed : List (Option ℚ)) (e : DataEncoding) : BndData :=
  let lb := varZip e.n_wdg (List.replicate e.n_wdg e.norm_min)
    (List.replicate e.n_wdg e.norm_min) (List.replicate e.n_wdg e.norm_min)
    (List.replicate (e.n_wdg - 1) 0) 0
  let ub := varZip e.n_wdg (List.replicate e.n_wdg e.norm_max)
    (List.replicate e.n_wdg e.norm_max) (List.replicate e.n_wdg e.norm_max)
    (List.replicate (e.n_wdg - 1) (((e.layer_list.length : ℤ) - 1 : ℤ) : ℚ)) 0
  let discrete := varZip e.n_wdg (List.replicate e.n_wdg false)
    (List.replicate e.n_wdg false) (List.replicate e.n_wdg false)
    (List.replicate (e.n_wdg - 1) true) false
  { n_var := (x_fixed.filter (fun o => o.isNone)).length
    discrete := maskFilter x_fixed discrete
    lb := maskFilter x_fixed lb
    ub := maskFilter x_fixed ub }

/-- C5: with `N = 3` nodes, one pinned source node and one pinned sink node,
the fixed mask has length `11`, exactly the middle node's `x`, `y` and
width (positions 4, 5, 6) are free, both layer slots (positions 3 and 7)
are fixed, and `get_bnd` returns exactly 3 free-variable bounds
entries. -/
theorem C5_fixed_mask_bounds (e : DataEncoding)
    (hn : e.n_wdg = 3) (hs : e.n_add_src = 1) (hk : e.n_add_sink = 1)
    (hm1 : e.src_geom.layer.getD 0 0 ∈ e.layer_list)
    (hm2 : e.sink_geom.layer.getD 0 0 ∈ e.layer_list) :
    ∃ m, get_fixed e = some m ∧ m.length = 11 ∧
      (get_bnd m e).n_var = 3 ∧ (get_bnd m e).lb.length = 3 ∧
      (get_bnd m e).ub.length = 3 ∧ (get_bnd m e).discrete.length = 3 ∧
      (m.getD 3 none).isSome ∧ (m.getD 7 none).isSome ∧
      m.getD 4 none = none ∧ m.getD 5 none = none ∧ m.getD 6 none = none := by
  have hmask : get_fixed e = some
      [some (encode_float (e.src_geom.x.getD 0 0) e.x_min e.x_max e.norm_min e.norm_max),
       some (encode_float (e.src_geom.y.getD 0 0) e.y_min e.y_max e.norm_min e.norm_max),
       some (encode_float (e.src_geom.width.getD 0 0) e.width_min e.width_max e.norm_min e.norm_max),
       some (((searchsorted e.layer_list (e.src_geom.layer.getD 0 0) : ℤ) : ℚ)),
       none, none, none,
       some (((searchsorted e.layer_list (e.sink_geom.layer.getD 0 0) : ℤ) : ℚ)),
       some (encode_float (e.sink_geom.x.getD 0 0) e.x_min e.x_max e.norm_min e.norm_max),
       some (encode_float (e.sink_geom.y.getD 0 0) e.y_min e.y_max e.norm_min e.norm_max),
       some (encode_float (e.sink_geom.width.getD 0 0) e.width_min e.width_max e.norm_min e.norm_max)] := by
    unfold get_fixed
    rw [if_pos ?_]
    · unfold varZip
      norm_num [List.range_succ, fixedRawX, fixedRawY, fixedRawW, fixedRawL, hn, hs, hk]
    · norm_num [List.range_succ, fixedRawL, hn, hs, hk]
      exact ⟨by simpa using hm1, by simpa using hm2⟩
  refine ⟨_, hmask, by norm_num, ?_, ?_, ?_, ?_, by norm_num, by norm_num,
    by norm_num, by norm_num, by norm_num⟩
  · simp [get_bnd]
  · rw [get_bnd]
    rw [hn]
    norm_num [maskFilter, varZip, List.range_succ]
  · rw [get_bnd]
    rw [hn]
    norm_num [maskFilter, varZip, List.range_succ]
  · rw [get_bnd]
    rw [hn]
    norm_num [maskFilter, varZip, List.range_succ]

/-- Concrete instantiation of C5: literal terminals and layer list `[1, 3]`. -/
theorem C5_fixed_mask_bounds_witness :
    ∃ m, get_fixed
      { n_wdg := 3, n_add_src := 1, n_add_sink := 1, n_mask_src := 1,
        n_mask_sink := 1,
        src_geom := ⟨[0], [0], [1], [1]⟩, sink_geom := ⟨[5], [5], [1], [3]⟩,
        norm_min := -1, norm_max := 1, layer_list := [1, 3],
        width_min := 0, width_max := 2, x_min := 0, x_max := 10,
        y_min := 0, y_max := 10 } = some m ∧ m.length = 11 ∧
      (get_bnd m
        { n_wdg := 3, n_add_src := 1, n_add_sink := 1, n_mask_src := 1,
          n_mask_sink := 1,
          src_geom := ⟨[0], [0], [1], [1]⟩, sink_geom := ⟨[5], [5], [1], [3]⟩,
          norm_min := -1, norm_max := 1, layer_list := [1, 3],
          width_min := 0, width_max := 2, x_min := 0, x_max := 10,
          y_min := 0, y_max := 10 }).n_var = 3 ∧
      (get_bnd m
        { n_wdg := 3, n_add_src := 1, n_add_sink := 1, n_mask_src := 1,
          n_mask_sink := 1,
          src_geom := ⟨[0], [0], [1], [1]⟩, sink_geom := ⟨[5], [5], [1], [3]⟩,
          norm_min := -1, norm_max := 1, layer_list := [1, 3],
          width_min := 0, width_max := 2, x_min := 0, x_max := 10,
          y_min := 0, y_max := 10 }).lb.length = 3 ∧
      (get_bnd m
        { n_wdg := 3, n_add_src := 1, n_add_sink := 1, n_mask_src := 1,
          n_mask_sink := 1,
          src_geom := ⟨[0], [0], [1], [1]⟩, sink_geom := ⟨[5], [5], [1], [3]⟩,
          norm_min := -1, norm_max := 1, layer_list := [1, 3],
          width_min := 0, width_max := 2, x_min := 0, x_max := 10,
          y_min := 0, y_max := 10 }).ub.length = 3 ∧
      (get_bnd m
        { n_wdg := 3, n_add_src := 1, n_add_sink := 1, n_mask_src := 1,
          n_mask_sink := 1,
          src_geom := ⟨[0], [0], [1], [1]⟩, sink_geom := ⟨[5], [5], [1], [3]⟩,
          norm_min := -1, norm_max := 1, layer_list := [1, 3],
          width_min := 0, width_max := 2, x_min := 0, x_max := 10,
          y_min := 0, y_max := 10 }).discrete.length = 3 ∧
      (m.getD 3 none).isSome ∧ (m.getD 7 none).isSome ∧
      m.getD 4 none = none ∧ m.getD 5 none = none ∧ m.getD 6 none = none :=
  C5_fixed_mask_bounds _ rfl rfl rfl (by decide) (by decide)

/-! ### Convergence monitor (`_FunctionEval`) -/

/-- The `convergence` configuration dictionary: maximum evaluation count
(always provided by the configuration), and the three optional criteria
(sliding-window size, warm-up minimum, relative tolerance), `none` when
unset. -/
structure Convergence where
  n_eval_max : ℕ
  n_eval_conv : Option ℕ
  n_eval_init : Option ℕ
  tol_conv_cmp : Option ℚ

/-- The `_FunctionEval` monitor state: counters, the objective history, and
the best objective so far (`np.PINF` initially, modelled as `⊤`). -/
structure FunctionEval where
  conv : Convergence
  n_iter : ℕ
  n_eval_obj : ℕ
  n_eval_cond : ℕ
  n_cond_valid : ℕ
  n_cond_fail : ℕ
  obj_list : List ℚ
  obj_best : WithTop ℚ

/-- The monitor state right after the `_FunctionEval` constructor. -/
def initEval (conv : Convergence) : FunctionEval :=
  { conv := conv, n_iter := 0, n_eval_obj := 0, n_eval_cond := 0,
    n_cond_valid := 0, n_cond_fail := 0, obj_list := [], obj_best := ⊤ }

/-- Embeds `_set_obj_single`: count the call, update the best objective on
improvement, and append the value to the history. -/
def set_obj_single (s : FunctionEval) (obj : ℚ) : FunctionEval :=
  { s with
    n_eval_obj := s.n_eval_obj + 1
    obj_best := if (obj : WithTop ℚ) < s.obj_best then (obj : WithTop ℚ) else s.obj_best
    obj_list := s.obj_list ++ [obj] }

/-- Embeds `np.min` over an array: `none` on an empty array (numpy raises a
zero-size reduction error). -/
def listMin : List ℚ → Option ℚ
  | [] => none
  | a :: l => some ((listMin l).elim a (fun b => min a b))

/-- The Python slice `obj_list[:-n_eval_conv]` (for `n_eval_conv = 0` this
is `obj_list[:0]`, the empty list). -/
def sliceBeforeWindow (l : List ℚ) (nc : ℕ) : List ℚ :=
  if nc = 0 then [] else l.take (l.length - nc)

/-- The Python slice `obj_list[-n_eval_conv:]` (for `n_eval_conv = 0` this
is the whole list). -/
def sliceWindow (l : List ℚ) (nc : ℕ) : List ℚ :=
  if nc = 0 then l else l.drop (l.length - nc)

/-- The comparison `(obj_cmp - obj_min) / obj_min < tol_conv_cmp` under IEEE
float semantics on exactly-represented values: a zero `obj_min` yields
`−∞ < tol` (true), `+∞ < tol` (false) or `NaN < tol` (false) instead of
rational division. -/
def tolLt (obj_cmp obj_min tol : ℚ) : Bool :=
  if obj_min = 0 then
    if obj_cmp - obj_min < 0 then true else false
  else decide ((obj_cmp - obj_min) / obj_min < tol)

/-- Embeds `get_convergence`: forced convergence once the objective count
reaches the maximum; otherwise `false` when any of the three criteria is
unset or the count is below `max(warm-up, window)`; otherwise the relative
improvement test between the pre-window minimum and the window minimum
(`none` models the numpy zero-size reduction error when a slice is
empty). -/
def get_convergence (s : FunctionEval) : Option Bool :=
  if s.conv.n_eval_max ≤ s.n_eval_obj then some true
  else
    match s.conv.n_eval_conv, s.conv.n_eval_init, s.conv.tol_conv_cmp with
    | some nc, some ni, some tol =>
      if s.n_eval_obj < max ni nc then some false
      else
        match listMin (sliceBeforeWindow s.obj_list nc),
            listMin (sliceWindow s.obj_list nc) with
        | some obj_cmp, some obj_min => some (tolLt obj_cmp obj_min tol)
        | _, _ => none
    | _, _, _ => some false

theorem listMin_of_ne_nil (l : List ℚ) (h : l ≠ []) : ∃ a, listMin l = some a := by
  cases l with
  | nil => exact absurd rfl h
  | cons a t => exact ⟨_, rfl⟩

theorem foldl_set_obj_n_eval (objs : List ℚ) (s : FunctionEval) :
    (objs.foldl set_obj_single s).n_eval_obj = s.n_eval_obj + objs.length := by
  induction objs generalizing s with
  | nil => simp
  | cons a t ih =>
    simp only [List.foldl_cons, ih, set_obj_single, List.length_cons]
    omega

theorem foldl_set_obj_conv (objs : List ℚ) (s : FunctionEval) :
    (objs.foldl set_obj_single s).conv = s.conv := by
  induction objs generalizing s with
  | nil => rfl
  | cons a t ih => simp only [List.foldl_cons, ih, set_obj_single]

/-- C2 as amended: convergence is reported `true` once the objective count
reaches the configured maximum (in particular after exactly 50 recorded
evaluations with `max_eval = 50`); below the maximum it is `false` when
any of the three optional criteria is unset or the count is below
`max(warm-up, window)`; and when all three are set, the count is below the
maximum, at least `max(warm-up, window)`, and **strictly above the
window** (so the pre-window history is nonempty), it equals the relative
improvement test between the pre-window minimum and the window minimum. -/
theorem C2_convergence_check (s : FunctionEval)
    (hlen : s.obj_list.length = s.n_eval_obj) :
    (s.conv.n_eval_max ≤ s.n_eval_obj → get_convergence s = some true) ∧
    (s.n_eval_obj < s.conv.n_eval_max →
      (s.conv.n_eval_conv = none ∨ s.conv.n_eval_init = none ∨
        s.conv.tol_conv_cmp = none) →
      get_convergence s = some false) ∧
    (∀ nc ni tol, s.conv.n_eval_conv = some nc → s.conv.n_eval_init = some ni →
      s.conv.tol_conv_cmp = some tol → s.n_eval_obj < s.conv.n_eval_max →
      s.n_eval_obj < max ni nc → get_convergence s = some false) ∧
    (∀ nc ni tol, s.conv.n_eval_conv = some nc → s.conv.n_eval_init = some ni →
      s.conv.tol_conv_cmp = some tol → s.n_eval_obj < s.conv.n_eval_max →
      max ni nc ≤ s.n_eval_obj → 1 ≤ nc → nc < s.n_eval_obj →
      ∃ a b, listMin (sliceBeforeWindow s.obj_list nc) = some a ∧
        listMin (sliceWindow s.obj_list nc) = some b ∧
        get_convergence s = some (tolLt a b tol)) ∧
    (∀ (conv : Convergence) (objs : List ℚ), conv.n_eval_max = 50 →
      objs.length = 50 →
      get_convergence (objs.foldl set_obj_single (initEval conv)) = some true) := by
  refine ⟨?_, ?_, ?_, ?_, ?_⟩
  · intro h
    unfold get_convergence
    rw [if_pos h]
  · intro hlt hnone
    unfold get_convergence
    rw [if_neg (by omega)]
    cases hc : s.conv.n_eval_conv with
    | none => rfl
    | some nc =>
      cases hi : s.conv.n_eval_init with
      | none => rfl
      | some ni =>
        cases ht : s.conv.tol_conv_cmp with
        | none => rfl
        | some tol =>
          rcases hnone with h | h | h
          · rw [hc] at h; cases h
          · rw [hi] at h; cases h
          · rw [ht] at h; cases h
  · intro nc ni tol hc hi ht hlt hbelow
    unfold get_convergence
    rw [if_neg (by omega), hc, hi, ht]
    simp only [if_pos hbelow]
  · intro nc ni tol hc hi ht hlt habove h1 hwin
    have hbefore : sliceBeforeWindow s.obj_list nc ≠ [] := by
      unfold sliceBeforeWindow
      rw [if_neg (by omega)]
      have : s.obj_list.length - nc ≥ 1 := by omega
      intro hemp
      have := congrArg List.length hemp
      simp at this
      omega
    have hwindow : sliceWindow s.obj_list nc ≠ [] := by
      unfold sliceWindow
      rw [if_neg (by omega)]
      intro hemp
      have := congrArg List.length hemp
      simp at this
      omega
    obtain ⟨a, ha⟩ := listMin_of_ne_nil _ hbefore
    obtain ⟨b, hb⟩ := listMin_of_ne_nil _ hwindow
    refine ⟨a, b, ha, hb, ?_⟩
    unfold get_convergence
    rw [if_neg (by omega), hc, hi, ht]
    have hnb : ¬ s.n_eval_obj < max ni nc := not_lt.mpr habove
    simp only [hnb, if_false, ha, hb]
  · intro conv objs hmax hcnt
    have hobj : (objs.foldl set_obj_single (initEval conv)).n_eval_obj = 50 := by
      rw [foldl_set_obj_n_eval]
      simp [initEval, hcnt]
    unfold get_convergence
    rw [if_pos (by rw [foldl_set_obj_conv, hobj]; simp [initEval, hmax])]

/-- Concrete instantiation of C2: with `max_eval = 50` and 50 recorded
evaluations the monitor reports convergence. -/
theorem C2_convergence_check_witness :
    get_convergence
      { conv := ⟨50, none, none, none⟩, n_iter := 0, n_eval_obj := 50,
        n_eval_cond := 0, n_cond_valid := 0, n_cond_fail := 0,
        obj_list := List.replicate 50 1, obj_best := ⊤ } = some true :=
  (C2_convergence_check
    { conv := ⟨50, none, none, none⟩, n_iter := 0, n_eval_obj := 50,
      n_eval_cond := 0, n_cond_valid := 0, n_cond_fail := 0,
      obj_list := List.replicate 50 1, obj_best := ⊤ } (by simp)).1 (by norm_num)

/-- Counterexample to C2 as stated: with window `n_eval_conv = 2`, warm-up
`n_eval_init = 1` and a tolerance set, after exactly 2 recorded
evaluations the count reaches `max(warm-up, window)` and is below the
maximum, yet `get_convergence` raises a numpy zero-size reduction error
(the pre-window slice is empty) instead of returning the claimed
boolean. -/
theorem C2_convergence_check_counterexample :
    (set_obj_single (set_obj_single
        (initEval ⟨50, some 2, some 1, some (1/10)⟩) 1) 2).n_eval_obj = 2 ∧
    max 1 2 ≤ 2 ∧ (2 : ℕ) < 50 ∧
    get_convergence (set_obj_single (set_obj_single
        (initEval ⟨50, some 2, some 1, some (1/10)⟩) 1) 2) = none := by
  refine ⟨rfl, by norm_num, by norm_num, ?_⟩
  unfold get_convergence set_obj_single initEval
  norm_num [sliceBeforeWindow, sliceWindow, listMin]

/-! ### Worker pools (`manage_pool.py`)

The process pool and real-time behaviour are abstracted by oracles: the
unordered completion stream of `imap_unordered` is an arbitrary event trace
(timeouts interleaved with completed items, followed by exhaustion), and
the flush timing test `time.time() - timestamp > delay_collect` is an
arbitrary Boolean oracle indexed by the loop step. Every theorem holds for
all oracle choices, hence for every actual schedule. -/

/-- One poll of the completion stream in `_ThreadException.loop`: either a
`multiprocessing.TimeoutError` (ignored) or a completed item. The stream
ends with `StopIteration` once the trace is exhausted. -/
inductive PoolEvent (α : Type) where
  | timeout : PoolEvent α
  | item : α → PoolEvent α

/-- One invocation of the user collect callback
`fct_collect(out_list, n_count, n_total)`. -/
structure CollectCall (α : Type) where
  batch : List α
  n_count : ℕ
  n_total : ℕ
deriving DecidableEq

/-- The completed items of a trace, in completion order. -/
def traceItems : List (PoolEvent α) → List α
  | [] => []
  | PoolEvent.timeout :: r => traceItems r
  | PoolEvent.item a :: r => a :: traceItems r

/-- The main loop of `_ThreadException.loop` after the initial collect: each
event updates the accumulator and counter, then the flush-interval test
(oracle `flush` at the current step) decides whether to invoke the collect
callback and reset the accumulator; `StopIteration` (trace exhaustion)
breaks out and the final collect delivers whatever remains. Returns the
list of collect-callback invocations in order. -/
def loopGo (nTotal : ℕ) (flush : ℕ → Bool) :
    List (PoolEvent α) → ℕ → List α → ℕ → List (CollectCall α)
  | [], n_count, out_list, _ => [⟨out_list, n_count, nTotal⟩]
  | e :: rest, n_count, out_list, t =>
    match e with
    | PoolEvent.timeout =>
      if flush t then ⟨out_list, n_count, nTotal⟩ :: loopGo nTotal flush rest n_count [] (t + 1)
      else loopGo nTotal flush rest n_count out_list (t + 1)
    | PoolEvent.item a =>
      if flush t then
        ⟨out_list ++ [a], n_count + 1, nTotal⟩ :: loopGo nTotal flush rest (n_count + 1) [] (t + 1)
      else loopGo nTotal flush rest (n_count + 1) (out_list ++ [a]) (t + 1)

/-- Embeds `_ThreadException.loop`: the immediate initial empty collect,
then the polling loop. -/
def threadLoop (nTotal : ℕ) (flush : ℕ → Bool) (trace : List (PoolEvent α)) :
    List (CollectCall α) :=
  ⟨[], 0, nTotal⟩ :: loopGo nTotal flush trace 0 [] 0

/-- Embeds `QueuePool._get_map_serial`: one compute and one collect call per
item, with the 1-based running count (no initial empty collect, no
buffering). -/
def mapSerialGo (f : α → β) : List α → ℕ → ℕ → List (CollectCall β)
  | [], _, _ => []
  | a :: rest, n_count, nTotal =>
    ⟨[f a], n_count + 1, nTotal⟩ :: mapSerialGo f rest (n_count + 1) nTotal

/-- Embeds `QueuePool.get_loop`: the serial per-item loop with zero workers,
the collector thread over the unordered completion stream otherwise. -/
def queueGetLoop (nPar : ℕ) (f : α → β) (inputs : List α) (flush : ℕ → Bool)
    (trace : List (PoolEvent β)) : List (CollectCall β) :=
  if nPar = 0 then mapSerialGo f inputs 0 inputs.length
  else threadLoop inputs.length flush trace

/-! #### Collector loop invariants -/

theorem loopGo_ne_nil (nTotal : ℕ) (flush : ℕ → Bool) (evts : List (PoolEvent α))
    (k : ℕ) (acc : List α) (t : ℕ) : loopGo nTotal flush evts k acc t ≠ [] := by
  induction evts generalizing k acc t with
  | nil => simp [loopGo]
  | cons e rest ih =>
    cases e with
    | timeout =>
      by_cases hf : flush t <;> simp [loopGo, hf, ih]
    | item a =>
      by_cases hf : flush t <;> simp [loopGo, hf, ih]

theorem loopGo_mem_spec (nTotal : ℕ) (flush : ℕ → Bool) (evts : List (PoolEvent α))
    (k : ℕ) (acc : List α) (t : ℕ) :
    ∀ c ∈ loopGo nTotal flush evts k acc t,
      c.n_total = nTotal ∧ k ≤ c.n_count ∧
        c.n_count ≤ k + (traceItems evts).length := by
  induction evts generalizing k acc t with
  | nil =>
    intro c hc
    simp only [loopGo, List.mem_singleton] at hc
    subst hc
    simp [traceItems]
  | cons e rest ih =>
    intro c hc
    cases e with
    | timeout =>
      by_cases hf : flush t
      · simp only [loopGo, hf, if_true, List.mem_cons] at hc
        rcases hc with hc | hc
        · subst hc
          simp [traceItems]
        · have h := ih k [] (t + 1) c hc
          simp only [traceItems] at h ⊢
          exact h
      · simp only [loopGo, hf, Bool.false_eq_true, if_false] at hc
        have h := ih k acc (t + 1) c hc
        simp only [traceItems] at h ⊢
        exact h
    | item a =>
      by_cases hf : flush t
      · simp only [loopGo, hf, if_true, List.mem_cons] at hc
        rcases hc with hc | hc
        · subst hc
          simp only [traceItems, List.length_cons]
          exact ⟨by trivial, by omega, by omega⟩
        · have h := ih (k + 1) [] (t + 1) c hc
          simp only [traceItems, List.length_cons] at h ⊢
          exact ⟨h.1, by omega, by omega⟩
      · simp only [loopGo, hf, Bool.false_eq_true, if_false] at hc
        have h := ih (k + 1) (acc ++ [a]) (t + 1) c hc
        simp only [traceItems, List.length_cons] at h ⊢
        exact ⟨h.1, by omega, by omega⟩

theorem loopGo_chain (nTotal : ℕ) (flush : ℕ → Bool) (evts : List (PoolEvent α))
    (k : ℕ) (acc : List α) (t : ℕ) :
    List.Chain' (· ≤ ·) ((loopGo nTotal flush evts k acc t).map CollectCall.n_count) := by
  induction evts generalizing k acc t with
  | nil => simp [loopGo]
  | cons e rest ih =>
    cases e with
    | timeout =>
      by_cases hf : flush t
      · simp only [loopGo, hf, if_true, List.map_cons]
        rw [List.chain'_cons']
        refine ⟨?_, ih k [] (t + 1)⟩
        intro y hy
        rw [List.head?_map] at hy
        cases hh : (loopGo nTotal flush rest k [] (t + 1)).head? with
        | none => simp [hh] at hy
        | some c =>
          rw [hh] at hy
          simp at hy
          have hcmem := List.mem_of_mem_head? (l := loopGo nTotal flush rest k [] (t + 1)) hh
          have hb := loopGo_mem_spec nTotal flush rest k [] (t + 1) c hcmem
          omega
      · simp only [loopGo, hf, Bool.false_eq_true, if_false]
        exact ih k acc (t + 1)
    | item a =>
      by_cases hf : flush t
      · simp only [loopGo, hf, if_true, List.map_cons]
        rw [List.chain'_cons']
        refine ⟨?_, ih (k + 1) [] (t + 1)⟩
        intro y hy
        rw [List.head?_map] at hy
        cases hh : (loopGo nTotal flush rest (k + 1) [] (t + 1)).head? with
        | none => simp [hh] at hy
        | some c =>
          rw [hh] at hy
          simp at hy
          have hcmem := List.mem_of_mem_head?
            (l := loopGo nTotal flush rest (k + 1) [] (t + 1)) hh
          have hb := loopGo_mem_spec nTotal flush rest (k + 1) [] (t + 1) c hcmem
          omega
      · simp only [loopGo, hf, Bool.false_eq_true, if_false]
        exact ih (k + 1) (acc ++ [a]) (t + 1)

theorem getLast?_cons_of_ne_nil (x : β) (l : List β) (h : l ≠ []) :
    (x :: l).getLast? = l.getLast? := by
  cases l with
  | nil => exact absurd rfl h
  | cons b t => rfl

theorem loopGo_getLast (nTotal : ℕ) (flush : ℕ → Bool) (evts : List (PoolEvent α))
    (k : ℕ) (acc : List α) (t : ℕ) :
    (loopGo nTotal flush evts k acc t).getLast?.map CollectCall.n_count =
      some (k + (traceItems evts).length) := by
  induction evts generalizing k acc t with
  | nil => simp [loopGo, traceItems]
  | cons e rest ih =>
    cases e with
    | timeout =>
      by_cases hf : flush t
      · simp only [loopGo, hf, if_true]
        rw [getLast?_cons_of_ne_nil _ _ (loopGo_ne_nil nTotal flush rest k [] (t + 1))]
        simpa [traceItems] using ih k [] (t + 1)
      · simp only [loopGo, hf, Bool.false_eq_true, if_false]
        simpa [traceItems] using ih k acc (t + 1)
    | item a =>
      by_cases hf : flush t
      · simp only [loopGo, hf, if_true]
        rw [getLast?_cons_of_ne_nil _ _ (loopGo_ne_nil nTotal flush rest (k + 1) [] (t + 1))]
        rw [ih (k + 1) [] (t + 1)]
        simp only [traceItems, List.length_cons, Option.some.injEq]
        omega
      · simp only [loopGo, hf, Bool.false_eq_true, if_false]
        rw [ih (k + 1) (acc ++ [a]) (t + 1)]
        simp only [traceItems, List.length_cons, Option.some.injEq]
        omega

theorem loopGo_flatten (nTotal : ℕ) (flush : ℕ → Bool) (evts : List (PoolEvent α))
    (k : ℕ) (acc : List α) (t : ℕ) :
    ((loopGo nTotal flush evts k acc t).map CollectCall.batch).flatten =
      acc ++ traceItems evts := by
  induction evts generalizing k acc t with
  | nil => simp [loopGo, traceItems]
  | cons e rest ih =>
    cases e with
    | timeout =>
      by_cases hf : flush t
      · simp only [loopGo, hf, if_true, List.map_cons, List.flatten_cons]
        rw [ih k [] (t + 1)]
        simp [traceItems]
      · simp only [loopGo, hf, Bool.false_eq_true, if_false]
        rw [ih k acc (t + 1)]
        simp [traceItems]
    | item a =>
      by_cases hf : flush t
      · simp only [loopGo, hf, if_true, List.map_cons, List.flatten_cons]
        rw [ih (k + 1) [] (t + 1)]
        simp [traceItems]
      · simp only [loopGo, hf, Bool.false_eq_true, if_false]
        rw [ih (k + 1) (acc ++ [a]) (t + 1)]
        simp [traceItems]

/-! #### Serial loop facts -/

theorem mapSerialGo_mem_spec (f : α → β) (l : List α) (k n : ℕ) :
    ∀ c ∈ mapSerialGo f l k n,
      c.n_total = n ∧ k + 1 ≤ c.n_count ∧ c.n_count ≤ k + l.length := by
  induction l generalizing k with
  | nil => intro c hc; simp [mapSerialGo] at hc
  | cons a rest ih =>
    intro c hc
    simp only [mapSerialGo, List.mem_cons] at hc
    rcases hc with hc | hc
    · subst hc
      simp only [List.length_cons]
      exact ⟨by trivial, by omega, by omega⟩
    · have h := ih (k + 1) c hc
      simp only [List.length_cons] at h ⊢
      exact ⟨h.1, by omega, by omega⟩

theorem mapSerialGo_chain (f : α → β) (l : List α) (k n : ℕ) :
    List.Chain' (· ≤ ·) ((mapSerialGo f l k n).map CollectCall.n_count) := by
  induction l generalizing k with
  | nil => simp [mapSerialGo]
  | cons a rest ih =>
    cases rest with
    | nil => simp [mapSerialGo]
    | cons b r =>
      have h := ih (k + 1)
      simp only [mapSerialGo, List.map_cons] at h ⊢
      exact List.Chain'.cons (by omega) h

theorem mapSerialGo_getLast (f : α → β) (l : List α) (k n : ℕ) (hl : l ≠ []) :
    (mapSerialGo f l k n).getLast?.map CollectCall.n_count = some (k + l.length) := by
  induction l generalizing k with
  | nil => exact absurd rfl hl
  | cons a rest ih =>
    cases rest with
    | nil => simp [mapSerialGo]
    | cons b r =>
      have hne : mapSerialGo f (b :: r) (k + 1) n ≠ [] := by simp [mapSerialGo]
      show ((⟨[f a], k + 1, n⟩ : CollectCall β) ::
        mapSerialGo f (b :: r) (k + 1) n).getLast?.map CollectCall.n_count = _
      rw [getLast?_cons_of_ne_nil _ _ hne, ih (k + 1) (by simp)]
      simp only [List.length_cons, Option.some.injEq]
      omega

theorem mapSerialGo_flatten (f : α → β) (l : List α) (k n : ℕ) :
    ((mapSerialGo f l k n).map CollectCall.batch).flatten = l.map f := by
  induction l generalizing k with
  | nil => simp [mapSerialGo]
  | cons a rest ih =>
    simp only [mapSerialGo, List.map_cons, List.flatten_cons, ih (k + 1)]
    rfl

theorem mapSerialGo_getElem? (f : α → β) (l : List α) (k n j : ℕ) :
    (mapSerialGo f l k n)[j]? =
      (l[j]?).map (fun a => (⟨[f a], k + j + 1, n⟩ : CollectCall β)) := by
  induction l generalizing k j with
  | nil => simp [mapSerialGo]
  | cons a rest ih =>
    cases j with
    | zero => simp [mapSerialGo]
    | succ m =>
      simp only [mapSerialGo, List.getElem?_cons_succ, ih (k + 1) m]
      have harith : k + 1 + m + 1 = k + (m + 1) + 1 := by omega
      rw [harith]



/-! #### QueuePool claim theorems -/

/-- C3 as amended: for every `QueuePool.run` call over `n` items — the
zero-worker serial loop, or the collector thread over any completion
trace delivering exactly the `n` computed results in any order with any
timeout/flush schedule — the `processed_count` values passed to the
collect callback are monotonically non-decreasing, bounded by `n`, and
end at exactly `n`; the batches passed to the callback contain every
computed result exactly once (their sizes sum to `n`); the counts start
at `0` with a positive worker count, but at `1` (one callback per item,
no initial empty flush) in the zero-worker serial path. -/
theorem queueGetLoop_zero (f : α → β) (inputs : List α) (flush : ℕ → Bool)
    (trace : List (PoolEvent β)) :
    queueGetLoop 0 f inputs flush trace = mapSerialGo f inputs 0 inputs.length := by
  simp [queueGetLoop]

theorem queueGetLoop_pos (nPar : ℕ) (f : α → β) (inputs : List α)
    (flush : ℕ → Bool) (trace : List (PoolEvent β)) (hp : nPar ≠ 0) :
    queueGetLoop nPar f inputs flush trace = threadLoop inputs.length flush trace := by
  simp [queueGetLoop, hp]

theorem C3_streaming_completeness (nPar : ℕ) (f : α → β) (inputs : List α)
    (flush : ℕ → Bool) (trace : List (PoolEvent β))
    (htrace : nPar ≠ 0 → (traceItems trace).Perm (inputs.map f)) :
    List.Chain' (· ≤ ·)
      ((queueGetLoop nPar f inputs flush trace).map CollectCall.n_count) ∧
    (∀ c ∈ queueGetLoop nPar f inputs flush trace,
      c.n_total = inputs.length ∧ c.n_count ≤ inputs.length) ∧
    ((nPar ≠ 0 ∨ inputs ≠ []) →
      (queueGetLoop nPar f inputs flush trace).getLast?.map CollectCall.n_count =
        some inputs.length) ∧
    (((queueGetLoop nPar f inputs flush trace).map CollectCall.batch).flatten).Perm
      (inputs.map f) ∧
    (((queueGetLoop nPar f inputs flush trace).map CollectCall.n_count).head? =
      if nPar = 0 then (inputs.head?.map (fun _ => 1)) else some 0) := by
  by_cases hp : nPar = 0
  · subst hp
    rw [queueGetLoop_zero]
    refine ⟨mapSerialGo_chain f inputs 0 inputs.length, ?_, ?_, ?_, ?_⟩
    · intro c hc
      have h := mapSerialGo_mem_spec f inputs 0 inputs.length c hc
      exact ⟨h.1, by omega⟩
    · intro hor
      have hne : inputs ≠ [] := by tauto
      have h := mapSerialGo_getLast f inputs 0 inputs.length hne
      simpa using h
    · rw [mapSerialGo_flatten]
    · rw [if_pos rfl]
      cases inputs with
      | nil => simp [mapSerialGo]
      | cons a rest => simp [mapSerialGo]
  · have hperm := htrace hp
    have hlen : (traceItems trace).length = inputs.length := by
      rw [hperm.length_eq, List.length_map]
    rw [queueGetLoop_pos nPar f inputs flush trace hp]
    unfold threadLoop
    refine ⟨?_, ?_, ?_, ?_, ?_⟩
    · simp only [List.map_cons]
      rw [List.chain'_cons']
      refine ⟨?_, loopGo_chain inputs.length flush trace 0 [] 0⟩
      intro y hy
      exact Nat.zero_le y
    · intro c hc
      rcases List.mem_cons.mp hc with hc | hc
      · subst hc
        exact ⟨rfl, Nat.zero_le _⟩
      · have h := loopGo_mem_spec inputs.length flush trace 0 [] 0 c hc
        rw [hlen] at h
        exact ⟨h.1, by omega⟩
    · intro hor
      rw [getLast?_cons_of_ne_nil _ _ (loopGo_ne_nil inputs.length flush trace 0 [] 0)]
      rw [loopGo_getLast, hlen]
      simp
    · simp only [List.map_cons, List.flatten_cons]
      rw [loopGo_flatten]
      simpa using hperm
    · rw [if_neg hp]
      simp

/-- Counterexample to C3 as stated: with zero workers and a single work
item, the only `processed_count` value passed to the collect callback is
`1` — the sequence does not start from `0`. -/
theorem C3_streaming_completeness_counterexample :
    ((queueGetLoop 0 (fun q : ℚ => q) [3] (fun _ => false)
        ([] : List (PoolEvent ℚ))).map CollectCall.n_count = [1]) ∧
    ∀ c ∈ queueGetLoop 0 (fun q : ℚ => q) [3] (fun _ => false)
        ([] : List (PoolEvent ℚ)), c.n_count ≠ 0 := by
  refine ⟨?_, ?_⟩
  · simp [queueGetLoop, mapSerialGo]
  · intro c hc
    simp [queueGetLoop, mapSerialGo] at hc
    subst hc
    simp

/-- Concrete instantiation of the amended C3: 3 items with 2 workers, an
out-of-order completion trace with timeouts, and a flush after every
step. -/
theorem C3_streaming_completeness_witness :
    List.Chain' (· ≤ ·)
      ((queueGetLoop 2 (fun q : ℚ => q + 1) [1, 2, 3] (fun _ => true)
          [PoolEvent.timeout, PoolEvent.item 3, PoolEvent.item 2,
            PoolEvent.timeout, PoolEvent.item 4]).map CollectCall.n_count) ∧
    (∀ c ∈ queueGetLoop 2 (fun q : ℚ => q + 1) [1, 2, 3] (fun _ => true)
        [PoolEvent.timeout, PoolEvent.item 3, PoolEvent.item 2,
          PoolEvent.timeout, PoolEvent.item 4],
      c.n_total = 3 ∧ c.n_count ≤ 3) ∧
    ((queueGetLoop 2 (fun q : ℚ => q + 1) [1, 2, 3] (fun _ => true)
        [PoolEvent.timeout, PoolEvent.item 3, PoolEvent.item 2,
          PoolEvent.timeout, PoolEvent.item 4]).getLast?.map CollectCall.n_count
      = some 3) ∧
    (((queueGetLoop 2 (fun q : ℚ => q + 1) [1, 2, 3] (fun _ => true)
        [PoolEvent.timeout, PoolEvent.item 3, PoolEvent.item 2,
          PoolEvent.timeout, PoolEvent.item 4]).map CollectCall.batch).flatten).Perm
      ([1, 2, 3].map (fun q : ℚ => q + 1)) := by
  have h := C3_streaming_completeness 2 (fun q : ℚ => q + 1) [1, 2, 3]
    (fun _ => true)
    [PoolEvent.timeout, PoolEvent.item 3, PoolEvent.item 2,
      PoolEvent.timeout, PoolEvent.item 4]
    (fun _ => by
      show List.Perm (traceItems _) _
      simp only [traceItems, List.map_cons, List.map_nil]
      norm_num
      exact List.Perm.swap' _ _ (List.Perm.refl _))
  refine ⟨h.1, ?_, ?_, h.2.2.2.1⟩
  · intro c hc
    exact h.2.1 c hc
  · have h3 := h.2.2.1 (Or.inl (by norm_num))
    simpa using h3

/-- C4 as amended: with a positive worker count the first collect-callback
invocation is always the initial empty flush (empty batch,
`processed_count = 0`), before any result is delivered; with zero workers
there is no initial empty flush — the `j`-th callback invocation (0-based)
carries exactly the singleton batch of the `j`-th result with
`processed_count = j + 1`. -/
theorem C4_initial_flush (f : α → β) (inputs : List α) (flush : ℕ → Bool)
    (trace : List (PoolEvent β)) :
    (∀ nPar, nPar ≠ 0 →
      (queueGetLoop nPar f inputs flush trace).head? =
        some ⟨[], 0, inputs.length⟩) ∧
    (∀ j, (queueGetLoop 0 f inputs flush trace)[j]? =
      (inputs[j]?).map
        (fun a => (⟨[f a], j + 1, inputs.length⟩ : CollectCall β))) := by
  constructor
  · intro nPar hp
    simp [queueGetLoop, if_neg hp, threadLoop]
  · intro j
    rw [queueGetLoop_zero]
    have h := mapSerialGo_getElem? f inputs 0 inputs.length j
    simpa using h

/-- Counterexample to C4 as stated: with zero workers and one work item, the
first collect-callback invocation carries the computed result with
`processed_count = 1` — it is not an initial empty flush. -/
theorem C4_initial_flush_counterexample :
    (queueGetLoop 0 (fun q : ℚ => q + 1) [4] (fun _ => false)
        ([] : List (PoolEvent ℚ))).head? = some ⟨[5], 1, 1⟩ ∧
    ∀ c, (queueGetLoop 0 (fun q : ℚ => q + 1) [4] (fun _ => false)
        ([] : List (PoolEvent ℚ))).head? = some c →
      c.batch ≠ [] ∧ c.n_count ≠ 0 := by
  constructor
  · simp [queueGetLoop, mapSerialGo]
    norm_num
  · intro c hc
    simp [queueGetLoop, mapSerialGo] at hc
    subst hc
    constructor
    · simp
    · simp

/-- Concrete instantiation of the amended C4. -/
theorem C4_initial_flush_witness :
    (queueGetLoop 3 (fun q : ℚ => q * 2) [1, 2] (fun _ => false)
        [PoolEvent.item 4, PoolEvent.item 2]).head? = some ⟨[], 0, 2⟩ ∧
    (queueGetLoop 0 (fun q : ℚ => q * 2) [1, 2] (fun _ => false)
        ([] : List (PoolEvent ℚ)))[0]? = some ⟨[2], 1, 2⟩ := by
  have h := C4_initial_flush (fun q : ℚ => q * 2) [1, 2] (fun _ => false)
    [PoolEvent.item 4, PoolEvent.item 2]
  have h2 := C4_initial_flush (fun q : ℚ => q * 2) [1, 2] (fun _ => false)
    ([] : List (PoolEvent ℚ))
  refine ⟨by simpa using h.1 3 (by norm_num), ?_⟩
  have := h2.2 0
  rw [this]
  norm_num

/-! #### FctPool -/

/-- Embeds the zero-worker branch of `FctPool.get_loop`: the list
comprehension applying the compute function to each argument tuple in
order. -/
def fctPoolLoopSerial (f : α → β) (inputs : List α) : List β := inputs.map f

/-- The iterator returned by `multiprocessing.Pool.imap`: completions are
keyed by submission index and the iterator yields them in submission
order (waiting as needed), regardless of completion order. `none` at an
index would mean no completion carried that index. -/
def imapOutput (pairs : List (ℕ × β)) (n : ℕ) : List (Option β) :=
  (List.range n).map (fun j => pairs.lookup j)

/-- Embeds the worker branch of `FctPool.get_loop`: each submitted item `i`
completes (in an arbitrary completion order given by `order`) with the
value `f inputs[i]` — the compute function is deterministic and each unit
of work is a single item — and `imap` reorders the completions to
submission order. -/
def fctPoolLoopParallel (f : α → β) (inputs : List α) (order : List ℕ) :
    List (Option β) :=
  imapOutput (order.filterMap
    (fun i => (inputs[i]?).map (fun a => (i, f a)))) inputs.length

theorem lookup_completions (f : α → β) (inputs : List α) (order : List ℕ)
    (j : ℕ) (hj : j ∈ order) (hb : ∀ i ∈ order, i < inputs.length) :
    (order.filterMap (fun i => (inputs[i]?).map (fun a => (i, f a)))).lookup j =
      (inputs[j]?).map f := by
  induction order with
  | nil => cases hj
  | cons i rest ih =>
    have hi : i < inputs.length := hb i (List.mem_cons_self i rest)
    obtain ⟨a, ha⟩ : ∃ a, inputs[i]? = some a :=
      ⟨_, List.getElem?_eq_getElem hi⟩
    simp only [List.filterMap_cons, ha, Option.map_some']
    by_cases hij : j = i
    · subst hij
      simp [List.lookup, ha]
    · have hjr : j ∈ rest := by
        rcases List.mem_cons.mp hj with h | h
        · exact absurd h hij
        · exact h
      have hrec := ih hjr (fun w hw => hb w (List.mem_cons_of_mem i hw))
      simpa [List.lookup, beq_false_of_ne hij] using hrec

theorem range_map_getElem?_map (l : List α) (f : α → β) :
    (List.range l.length).map (fun j => (l[j]?).map f) = (l.map f).map some := by
  induction l with
  | nil => simp
  | cons a t ih =>
    simp only [List.length_cons, List.range_succ_eq_map, List.map_cons,
      List.map_map, List.getElem?_cons_zero, Option.map_some']
    refine congrArg (List.cons (some (f a))) ?_
    have hc : ((fun j => ((a :: t)[j]?).map f) ∘ Nat.succ) =
        fun j => (t[j]?).map f := by
      funext j
      simp
    rw [hc]
    simpa using ih

/-- C9: for a deterministic compute function, `FctPool.get_loop` over any
inputs returns the outputs in input order regardless of the completion
order in the worker pool: the parallel result stream equals the serial
zero-worker result list (element by element, wrapped by the stream's
`some`). -/
theorem C9_pool_ordering (f : α → β) (inputs : List α) (order : List ℕ)
    (hperm : order.Perm (List.range inputs.length)) :
    fctPoolLoopParallel f inputs order = (fctPoolLoopSerial f inputs).map some := by
  unfold fctPoolLoopParallel imapOutput fctPoolLoopSerial
  have hb : ∀ i ∈ order, i < inputs.length := by
    intro i hi
    have := hperm.mem_iff.mp hi
    exact List.mem_range.mp this
  have hmem : ∀ j < inputs.length, j ∈ order := by
    intro j hjlt
    exact hperm.mem_iff.mpr (List.mem_range.mpr hjlt)
  calc (List.range inputs.length).map
        (fun j => (order.filterMap (fun i => (inputs[i]?).map (fun a => (i, f a)))).lookup j)
      = (List.range inputs.length).map (fun j => (inputs[j]?).map f) := by
        refine List.map_congr_left ?_
        intro j hjr
        exact lookup_completions f inputs order j (hmem j (List.mem_range.mp hjr)) hb
    _ = (inputs.map f).map some := range_map_getElem?_map inputs f

/-- Concrete instantiation of C9: five inputs, an out-of-order completion
schedule, identical order-preserved outputs. -/
theorem C9_pool_ordering_witness :
    fctPoolLoopParallel (fun q : ℚ => q * q) [1, 2, 3, 4, 5] [2, 0, 4, 1, 3] =
      (fctPoolLoopSerial (fun q : ℚ => q * q) [1, 2, 3, 4, 5]).map some :=
  C9_pool_ordering (fun q : ℚ => q * q) [1, 2, 3, 4, 5] [2, 0, 4, 1, 3] (by decide)

/-! ### Resampling (`get_resample` / `_get_winding_split`)

Segment scores involve `np.hypot` (a real square root), so they are
modelled in `EReal` (with `⊥` for the `np.NINF` masking); the definitions
in this section are therefore noncomputable. -/

/-- The scan of `np.argmax`: keep the first strictly-improving value, so the
result is the index of the first occurrence of the maximum. `bi`/`bv` are
the best index/value so far, `i` the index of the list head. -/
noncomputable def argmaxGo : List EReal → ℕ → EReal → ℕ → ℕ × EReal
  | [], bi, bv, _ => (bi, bv)
  | v :: r, bi, bv, i =>
    if bv < v then argmaxGo r i v (i + 1) else argmaxGo r bi bv (i + 1)

/-- Embeds `np.argmax` (first index of the maximum; `0` on an empty array,
where numpy would raise — unreachable in `_get_winding_split` since a
resampled design has at least one segment). -/
noncomputable def argmax : List EReal → ℕ
  | [] => 0
  | v :: r => (argmaxGo r 0 v 1).1

theorem argmaxGo_le (l : List EReal) (bi : ℕ) (bv : EReal) (i : ℕ) :
    bv ≤ (argmaxGo l bi bv i).2 ∧ ∀ x ∈ l, x ≤ (argmaxGo l bi bv i).2 := by
  induction l generalizing bi bv i with
  | nil => exact ⟨le_refl bv, by intro x hx; cases hx⟩
  | cons v r ih =>
    by_cases hlt : bv < v
    · simp only [argmaxGo, if_pos hlt]
      obtain ⟨h1, h2⟩ := ih i v (i + 1)
      refine ⟨le_trans (le_of_lt hlt) h1, ?_⟩
      intro x hx
      rcases List.mem_cons.mp hx with hx | hx
      · exact hx ▸ h1
      · exact h2 x hx
    · simp only [argmaxGo, if_neg hlt]
      obtain ⟨h1, h2⟩ := ih bi bv (i + 1)
      refine ⟨h1, ?_⟩
      intro x hx
      rcases List.mem_cons.mp hx with hx | hx
      · exact hx ▸ le_trans (not_lt.mp hlt) h1
      · exact h2 x hx

theorem argmaxGo_cases (l : List EReal) (bi : ℕ) (bv : EReal) (i : ℕ) :
    argmaxGo l bi bv i = (bi, bv) ∨
      ∃ j < l.length, argmaxGo l bi bv i = (i + j, l.getD j ⊥) := by
  induction l generalizing bi bv i with
  | nil => exact Or.inl rfl
  | cons v r ih =>
    by_cases hlt : bv < v
    · simp only [argmaxGo, if_pos hlt]
      rcases ih i v (i + 1) with h | ⟨j, hj, h⟩
      · exact Or.inr ⟨0, by simp, by simpa using h⟩
      · refine Or.inr ⟨j + 1, by simpa using hj, ?_⟩
        rw [h]
        simp only [List.getD_cons_succ]
        refine congrArg (fun z => (z, r.getD j ⊥)) ?_
        omega
    · simp only [argmaxGo, if_neg hlt]
      rcases ih bi bv (i + 1) with h | ⟨j, hj, h⟩
      · exact Or.inl h
      · refine Or.inr ⟨j + 1, by simpa using hj, ?_⟩
        rw [h]
        simp only [List.getD_cons_succ]
        refine congrArg (fun z => (z, r.getD j ⊥)) ?_
        omega

theorem argmax_lt_length (l : List EReal) (h : l ≠ []) : argmax l < l.length := by
  cases l with
  | nil => exact absurd rfl h
  | cons v r =>
    show (argmaxGo r 0 v 1).1 < (v :: r).length
    rcases argmaxGo_cases r 0 v 1 with hc | ⟨j, hj, hc⟩
    · rw [hc]
      simp
    · rw [hc]
      show 1 + j < r.length + 1
      omega

theorem getD_argmax_eq (l : List EReal) (h : l ≠ []) :
    ∀ x ∈ l, x ≤ l.getD (argmax l) ⊥ := by
  cases l with
  | nil => exact absurd rfl h
  | cons v r =>
    have hval : (v :: r).getD (argmax (v :: r)) ⊥ = (argmaxGo r 0 v 1).2 := by
      show (v :: r).getD (argmaxGo r 0 v 1).1 ⊥ = (argmaxGo r 0 v 1).2
      rcases argmaxGo_cases r 0 v 1 with hc | ⟨j, hj, hc⟩
      · rw [hc]
        rfl
      · rw [hc]
        show (v :: r).getD (1 + j) ⊥ = r.getD j ⊥
        have h1j : 1 + j = j + 1 := by omega
        rw [h1j, List.getD_cons_succ]
    intro x hx
    rw [hval]
    obtain ⟨h1, h2⟩ := argmaxGo_le r 0 v 1
    rcases List.mem_cons.mp hx with hx | hx
    · exact hx ▸ h1
    · exact h2 x hx

/-- Embeds `np.insert(arr, p, a)` for an insertion position `p ≤ len(arr)`:
the first `p` entries, the new value, then the rest. -/
def npInsert (p : ℕ) (a : α) (l : List α) : List α := l.take p ++ a :: l.drop p

theorem npInsert_length (p : ℕ) (a : α) (l : List α) :
    (npInsert p a l).length = l.length + 1 := by
  simp only [npInsert, List.length_append, List.length_cons, List.length_take,
    List.length_drop]
  omega

theorem npInsert_take (p q : ℕ) (a : α) (l : List α) (hq : q ≤ p)
    (hp : p ≤ l.length) : (npInsert p a l).take q = l.take q := by
  unfold npInsert
  rw [List.take_append_eq_append_take]
  have h1 : (l.take p).length = p := by
    rw [List.length_take]
    omega
  rw [h1, List.take_take]
  have h2 : min q p = q := by omega
  have h3 : q - p = 0 := by omega
  rw [h2, h3]
  simp

theorem npInsert_drop (p k : ℕ) (a : α) (l : List α) (h : p + k ≤ l.length) :
    (npInsert p a l).drop (l.length + 1 - k) = l.drop (l.length - k) := by
  unfold npInsert
  rw [List.drop_append_eq_append_drop]
  have h1 : (l.take p).length = p := by
    rw [List.length_take]
    omega
  rw [h1, List.drop_eq_nil_of_le (by rw [h1]; omega)]
  have h2 : l.length + 1 - k - p = (l.length - k - p) + 1 := by omega
  rw [h2, List.nil_append, List.drop_succ_cons, List.drop_drop]
  refine congrArg (fun z => l.drop z) ?_
  omega

/-- The per-segment score `length[i] = distance[i] - buffer[i]` of
`_get_winding_split` (Euclidean distance between nodes `i` and `i + 1`
minus half the sum of the adjacent widths), with the leading
`n_mask_src` and trailing `n_mask_sink` segments forced to `np.NINF`
(fixed terminals cannot be resampled). -/
noncomputable def segScore (c : DataCoil) (sM kM : ℕ) (i : ℕ) : EReal :=
  if i < sM ∨ c.x_wdg.length - 1 - kM ≤ i then ⊥
  else ((Real.sqrt ((((c.x_wdg.getD (i + 1) 0 : ℚ) : ℝ) - ((c.x_wdg.getD i 0 : ℚ) : ℝ)) ^ 2 +
      (((c.y_wdg.getD (i + 1) 0 : ℚ) : ℝ) - ((c.y_wdg.getD i 0 : ℚ) : ℝ)) ^ 2) -
      (((c.width_wdg.getD i 0 : ℚ) : ℝ) + ((c.width_wdg.getD (i + 1) 0 : ℚ) : ℝ)) / 2 : ℝ) : EReal)

/-- Embeds `_get_winding_split`: insert one node after the first
highest-scoring segment `idx`, with the averaged coordinates and width
and the copied layer code, and increment the node count. -/
noncomputable def winding_split (c : DataCoil) (sM kM : ℕ) : DataCoil :=
  let scores := (List.range (c.x_wdg.length - 1)).map (segScore c sM kM)
  let idx := argmax scores
  { n_wdg := c.n_wdg + 1
    x_wdg := npInsert (idx + 1) ((c.x_wdg.getD idx 0 + c.x_wdg.getD (idx + 1) 0) / 2) c.x_wdg
    y_wdg := npInsert (idx + 1) ((c.y_wdg.getD idx 0 + c.y_wdg.getD (idx + 1) 0) / 2) c.y_wdg
    width_wdg := npInsert (idx + 1)
      ((c.width_wdg.getD idx 0 + c.width_wdg.getD (idx + 1) 0) / 2) c.width_wdg
    layer_wdg := npInsert (idx + 1) (c.layer_wdg.getD idx 0) c.layer_wdg }

/-- The `while` loop of `get_resample`, by fuel: each `_get_winding_split`
call increments the node count by exactly one, so the loop body runs
exactly `target − current` times. -/
noncomputable def resampleAux (sM kM : ℕ) : ℕ → DataCoil → DataCoil
  | 0, c => c
  | fuel + 1, c => resampleAux sM kM fuel (winding_split c sM kM)

/-- Embeds `get_resample`: the assert `n_wdg_tmp <= n_wdg` (`SizeError` when
the target is below the current node count, modelled as `none`), then the
resampling loop up to the target count. -/
noncomputable def get_resample (c : DataCoil) (e : DataEncoding) : Option DataCoil :=
  if c.n_wdg ≤ e.n_wdg then
    some (resampleAux e.n_mask_src e.n_mask_sink (e.n_wdg - c.n_wdg) c)
  else none

/-- The split index chosen by `_get_winding_split` lies strictly inside the
unmasked segment range, provided at least one unmasked segment exists. -/
theorem winding_split_idx_bounds (c : DataCoil) (sM kM : ℕ)
    (helig : sM + kM < c.x_wdg.length - 1) :
    sM ≤ argmax ((List.range (c.x_wdg.length - 1)).map (segScore c sM kM)) ∧
      argmax ((List.range (c.x_wdg.length - 1)).map (segScore c sM kM)) <
        c.x_wdg.length - 1 - kM := by
  set nSeg := c.x_wdg.length - 1 with hnSeg
  set scores := (List.range nSeg).map (segScore c sM kM) with hscores
  have hslen : scores.length = nSeg := by simp [hscores]
  have hne : scores ≠ [] := by
    intro hemp
    rw [hemp] at hslen
    simp at hslen
    omega
  have hgetD : ∀ j < nSeg, scores.getD j ⊥ = segScore c sM kM j := by
    intro j hj
    rw [hscores, List.getD_eq_getElem?_getD, List.getElem?_map,
      List.getElem?_range hj]
    simp
  have hidxlt : argmax scores < nSeg := by
    have := argmax_lt_length scores hne
    omega
  have humask : scores.getD sM ⊥ = segScore c sM kM sM := hgetD sM (by omega)
  have hsm_ne : segScore c sM kM sM ≠ ⊥ := by
    unfold segScore
    rw [if_neg (by omega)]
    exact EReal.coe_ne_bot _
  have hmem : scores.getD sM ⊥ ∈ scores := by
    rw [List.getD_eq_getElem scores ⊥ (show sM < scores.length by omega)]
    exact List.getElem_mem _
  have hmax := getD_argmax_eq scores hne (scores.getD sM ⊥) hmem
  have hargne : scores.getD (argmax scores) ⊥ ≠ ⊥ := by
    intro hbot
    rw [hbot, le_bot_iff, humask] at hmax
    exact hsm_ne hmax
  rw [hgetD (argmax scores) hidxlt] at hargne
  unfold segScore at hargne
  by_cases hmask : argmax scores < sM ∨ c.x_wdg.length - 1 - kM ≤ argmax scores
  · rw [if_pos hmask] at hargne
    exact absurd rfl hargne
  · push_neg at hmask
    omega

/-- The first `sM` and the last `kM` entries of `l2` coincide with those of
`l1` (the masked terminal runs are untouched). -/
def PreservesEnds (sM kM : ℕ) (l1 l2 : List α) : Prop :=
  l2.take sM = l1.take sM ∧ l2.drop (l2.length - kM) = l1.drop (l1.length - kM)

theorem preservesEnds_refl (sM kM : ℕ) (l : List α) : PreservesEnds sM kM l l :=
  ⟨rfl, rfl⟩

theorem preservesEnds_trans {sM kM : ℕ} {l1 l2 l3 : List α}
    (h1 : PreservesEnds sM kM l1 l2) (h2 : PreservesEnds sM kM l2 l3) :
    PreservesEnds sM kM l1 l3 :=
  ⟨h2.1.trans h1.1, h2.2.trans h1.2⟩

theorem winding_split_spec (c : DataCoil) (sM kM : ℕ)
    (hx : c.x_wdg.length = c.n_wdg) (hy : c.y_wdg.length = c.n_wdg)
    (hw : c.width_wdg.length = c.n_wdg) (hl : c.layer_wdg.length = c.n_wdg - 1)
    (hn1 : 1 ≤ c.n_wdg) (helig : sM + kM < c.n_wdg - 1) :
    (winding_split c sM kM).n_wdg = c.n_wdg + 1 ∧
    (winding_split c sM kM).x_wdg.length = c.n_wdg + 1 ∧
    (winding_split c sM kM).y_wdg.length = c.n_wdg + 1 ∧
    (winding_split c sM kM).width_wdg.length = c.n_wdg + 1 ∧
    (winding_split c sM kM).layer_wdg.length = c.n_wdg ∧
    PreservesEnds sM kM c.x_wdg (winding_split c sM kM).x_wdg ∧
    PreservesEnds sM kM c.y_wdg (winding_split c sM kM).y_wdg ∧
    PreservesEnds sM kM c.width_wdg (winding_split c sM kM).width_wdg ∧
    PreservesEnds sM kM c.layer_wdg (winding_split c sM kM).layer_wdg := by
  obtain ⟨hbs, hbk⟩ := winding_split_idx_bounds c sM kM (by omega)
  simp only [winding_split]
  set idx := argmax ((List.range (c.x_wdg.length - 1)).map (segScore c sM kM)) with hidx
  refine ⟨by trivial, ?_, ?_, ?_, ?_, ⟨?_, ?_⟩, ⟨?_, ?_⟩, ⟨?_, ?_⟩, ⟨?_, ?_⟩⟩
  · rw [npInsert_length, hx]
  · rw [npInsert_length, hy]
  · rw [npInsert_length, hw]
  · rw [npInsert_length, hl]
    omega
  · exact npInsert_take (idx + 1) sM _ c.x_wdg (by omega) (by omega)
  · rw [npInsert_length]
    exact npInsert_drop (idx + 1) kM _ c.x_wdg (by omega)
  · exact npInsert_take (idx + 1) sM _ c.y_wdg (by omega) (by omega)
  · rw [npInsert_length]
    exact npInsert_drop (idx + 1) kM _ c.y_wdg (by omega)
  · exact npInsert_take (idx + 1) sM _ c.width_wdg (by omega) (by omega)
  · rw [npInsert_length]
    exact npInsert_drop (idx + 1) kM _ c.width_wdg (by omega)
  · exact npInsert_take (idx + 1) sM _ c.layer_wdg (by omega) (by omega)
  · rw [npInsert_length]
    exact npInsert_drop (idx + 1) kM _ c.layer_wdg (by omega)

theorem resampleAux_spec (sM kM fuel : ℕ) (c : DataCoil)
    (hx : c.x_wdg.length = c.n_wdg) (hy : c.y_wdg.length = c.n_wdg)
    (hw : c.width_wdg.length = c.n_wdg) (hl : c.layer_wdg.length = c.n_wdg - 1)
    (hn1 : 1 ≤ c.n_wdg) (helig : sM + kM < c.n_wdg - 1) :
    (resampleAux sM kM fuel c).n_wdg = c.n_wdg + fuel ∧
    (resampleAux sM kM fuel c).x_wdg.length = c.n_wdg + fuel ∧
    (resampleAux sM kM fuel c).y_wdg.length = c.n_wdg + fuel ∧
    (resampleAux sM kM fuel c).width_wdg.length = c.n_wdg + fuel ∧
    (resampleAux sM kM fuel c).layer_wdg.length = c.n_wdg + fuel - 1 ∧
    PreservesEnds sM kM c.x_wdg (resampleAux sM kM fuel c).x_wdg ∧
    PreservesEnds sM kM c.y_wdg (resampleAux sM kM fuel c).y_wdg ∧
    PreservesEnds sM kM c.width_wdg (resampleAux sM kM fuel c).width_wdg ∧
    PreservesEnds sM kM c.layer_wdg (resampleAux sM kM fuel c).layer_wdg := by
  induction fuel generalizing c with
  | zero =>
    simp only [resampleAux]
    refine ⟨by omega, by omega, by omega, by omega, by omega, ?_, ?_, ?_, ?_⟩ <;>
      exact preservesEnds_refl sM kM _
  | succ fuel ih =>
    obtain ⟨hsn, hsx, hsy, hsw, hsl, hpx, hpy, hpw, hpl⟩ :=
      winding_split_spec c sM kM hx hy hw hl hn1 helig
    have hstep := ih (winding_split c sM kM)
      (by omega) (by omega) (by omega) (by omega) (by omega) (by omega)
    obtain ⟨han, hax, hay, haw, hal, hqx, hqy, hqw, hql⟩ := hstep
    simp only [resampleAux]
    refine ⟨by omega, by omega, by omega, by omega, by omega,
      preservesEnds_trans hpx hqx, preservesEnds_trans hpy hqy,
      preservesEnds_trans hpw hqw, preservesEnds_trans hpl hql⟩

/-- C8 as amended: resampling fails with `SizeError` exactly when the target
count is below the current node count; otherwise — provided at least one
unmasked segment exists (`n_mask_src + n_mask_sink < node count − 1`) —
it returns a geometry with exactly `target_n` nodes, each internal step
inserting one midpoint node into the first highest-scoring unmasked
segment (masked segments are forced to `−∞`), and the masked
leading/trailing terminal runs (coordinates, widths and layer codes) are
never modified. (Without an unmasked segment, `np.argmax` over the
all-`−∞` score array degenerates to segment 0 and the insertion lands
inside the masked source run.) -/
theorem C8_resample_growth (c : DataCoil) (e : DataEncoding)
    (hx : c.x_wdg.length = c.n_wdg) (hy : c.y_wdg.length = c.n_wdg)
    (hw : c.width_wdg.length = c.n_wdg) (hl : c.layer_wdg.length = c.n_wdg - 1)
    (hn1 : 1 ≤ c.n_wdg) (helig : e.n_mask_src + e.n_mask_sink < c.n_wdg - 1) :
    (e.n_wdg < c.n_wdg → get_resample c e = none) ∧
    (c.n_wdg ≤ e.n_wdg → ∃ c2, get_resample c e = some c2 ∧
      c2.n_wdg = e.n_wdg ∧ c2.x_wdg.length = e.n_wdg ∧
      c2.y_wdg.length = e.n_wdg ∧ c2.width_wdg.length = e.n_wdg ∧
      c2.layer_wdg.length = e.n_wdg - 1 ∧
      PreservesEnds e.n_mask_src e.n_mask_sink c.x_wdg c2.x_wdg ∧
      PreservesEnds e.n_mask_src e.n_mask_sink c.y_wdg c2.y_wdg ∧
      PreservesEnds e.n_mask_src e.n_mask_sink c.width_wdg c2.width_wdg ∧
      PreservesEnds e.n_mask_src e.n_mask_sink c.layer_wdg c2.layer_wdg) := by
  constructor
  · intro hlt
    unfold get_resample
    rw [if_neg (by omega)]
  · intro hle
    obtain ⟨h1, h2, h3, h4, h5, h6, h7, h8, h9⟩ :=
      resampleAux_spec e.n_mask_src e.n_mask_sink (e.n_wdg - c.n_wdg) c
        hx hy hw hl hn1 helig
    refine ⟨resampleAux e.n_mask_src e.n_mask_sink (e.n_wdg - c.n_wdg) c,
      ?_, by omega, by omega, by omega, by omega, by omega, h6, h7, h8, h9⟩
    unfold get_resample
    rw [if_pos hle]

/-- Counterexample to C8 as stated: on a 3-node geometry whose both segments
belong to the masked source run (`n_mask_src = 2`), growing to 4 nodes
inserts the midpoint inside the masked run: the first two (pinned) nodes
change from `x = [0, 2]` to `x = [0, 1]`, so the masked terminal run is
modified even though its segments were scored `−∞`. -/
theorem C8_resample_growth_counterexample :
    get_resample
      ⟨3, [0, 2, 4], [0, 0, 0], [0, 0, 0], [5, 5]⟩
      { n_wdg := 4, n_add_src := 2, n_add_sink := 0, n_mask_src := 2,
        n_mask_sink := 0, src_geom := ⟨[], [], [], []⟩,
        sink_geom := ⟨[], [], [], []⟩, norm_min := 0, norm_max := 1,
        layer_list := [5], width_min := 0, width_max := 1, x_min := 0,
        x_max := 1, y_min := 0, y_max := 1 } =
      some ⟨4, [0, 1, 2, 4], [0, 0, 0, 0], [0, 0, 0, 0], [5, 5, 5]⟩ ∧
    ¬ (List.take 2 ([0, 1, 2, 4] : List ℚ) = List.take 2 ([0, 2, 4] : List ℚ)) := by
  have hsc : (List.range (([0, 2, 4] : List ℚ).length - 1)).map
      (segScore ⟨3, [0, 2, 4], [0, 0, 0], [0, 0, 0], [5, 5]⟩ 2 0) =
      [(⊥ : EReal), ⊥] := by
    simp [List.range_succ, segScore]
  have hidx : argmax [(⊥ : EReal), ⊥] = 0 := by
    simp [argmax, argmaxGo]
  constructor
  · unfold get_resample
    rw [if_pos (by norm_num)]
    have hfuel : (4 : ℕ) - 3 = 1 := by norm_num
    show some (resampleAux 2 0 (4 - 3) ⟨3, [0, 2, 4], [0, 0, 0], [0, 0, 0], [5, 5]⟩) = _
    rw [hfuel]
    show some (resampleAux 2 0 0
      (winding_split ⟨3, [0, 2, 4], [0, 0, 0], [0, 0, 0], [5, 5]⟩ 2 0)) = _
    simp only [resampleAux, winding_split, hsc, hidx]
    norm_num [npInsert]
  · simp

/-- Concrete instantiation of the amended C8: a 3-node geometry with one
masked source node grows to 4 nodes with the masked ends preserved. -/
theorem C8_resample_growth_witness :
    ∃ c2, get_resample
        ⟨3, [0, 0, 6], [0, 0, 0], [0, 0, 0], [5, 5]⟩
        { n_wdg := 4, n_add_src := 1, n_add_sink := 0, n_mask_src := 1,
          n_mask_sink := 0, src_geom := ⟨[], [], [], []⟩,
          sink_geom := ⟨[], [], [], []⟩, norm_min := 0, norm_max := 1,
          layer_list := [5], width_min := 0, width_max := 1, x_min := 0,
          x_max := 1, y_min := 0, y_max := 1 } = some c2 ∧
      c2.n_wdg = 4 ∧ c2.x_wdg.length = 4 ∧ c2.y_wdg.length = 4 ∧
      c2.width_wdg.length = 4 ∧ c2.layer_wdg.length = 4 - 1 ∧
      PreservesEnds 1 0 [0, 0, 6] c2.x_wdg ∧
      PreservesEnds 1 0 [0, 0, 0] c2.y_wdg ∧
      PreservesEnds 1 0 [0, 0, 0] c2.width_wdg ∧
      PreservesEnds 1 0 [5, 5] c2.layer_wdg :=
  (C8_resample_growth
    ⟨3, [0, 0, 6], [0, 0, 0], [0, 0, 0], [5, 5]⟩
    { n_wdg := 4, n_add_src := 1, n_add_sink := 0, n_mask_src := 1,
      n_mask_sink := 0, src_geom := ⟨[], [], [], []⟩,
      sink_geom := ⟨[], [], [], []⟩, norm_min := 0, norm_max := 1,
      layer_list := [5], width_min := 0, width_max := 1, x_min := 0,
      x_max := 1, y_min := 0, y_max := 1 }
    rfl rfl rfl rfl (by norm_num) (by norm_num)).2 (by norm_num)

end PyFreeCoil
